import Mathlib

/-!
Verification of the WAD decoder and sector-boundary reconstruction.

This file is a shallow embedding of the program in `src/wadd.rs` and
`src/main.rs`.  Files are modelled as lists of bytes (`List Nat`), machine
integers as `Int`/`Nat` with explicit two's-complement reinterpretation where
the code reads them from bytes, and every fallible operation (a Rust `panic!`,
`assert!`, `expect` or out-of-bounds index) is an `Option`/`Except` failure.
-/

namespace Wadd

/-! Byte-level helpers: little-endian integer decoding, as performed by
`i16::from_le_bytes` / `i32::from_le_bytes` / `u16::from_le_bytes`. -/

def le16 (b0 b1 : Nat) : Nat := b0 + 256 * b1

def toI16 (n : Nat) : Int := if n < 32768 then (n : Int) else (n : Int) - 65536

def le32 (b0 b1 b2 b3 : Nat) : Nat := b0 + 256 * b1 + 65536 * b2 + 16777216 * b3

def toI32 (n : Nat) : Int :=
  if n < 2147483648 then (n : Int) else (n : Int) - 4294967296

/-- Byte `i` of the file (reads past the end yield 0; the decoders are only
specified on in-bounds reads, where this default is never consulted). -/
def byteAt (file : List Nat) (i : Nat) : Nat := file.getD i 0

/-- `len` consecutive bytes of the file starting at `start`. -/
def sliceAt (file : List Nat) (start len : Nat) : List Nat :=
  (List.range len).map (fun j => byteAt file (start + j))

/-- A signed 16-bit little-endian word at byte offset `i`. -/
def word (file : List Nat) (i : Nat) : Int :=
  toI16 (le16 (byteAt file i) (byteAt file (i + 1)))

/-- An unsigned 16-bit little-endian word at byte offset `i`. -/
def uword (file : List Nat) (i : Nat) : Nat :=
  le16 (byteAt file i) (byteAt file (i + 1))

/-- A signed 32-bit little-endian word at byte offset `i`. -/
def dword (file : List Nat) (i : Nat) : Int :=
  toI32 (le32 (byteAt file i) (byteAt file (i + 1)) (byteAt file (i + 2))
    (byteAt file (i + 3)))

/-! UTF-8 validation/decoding, as performed by `String::from_utf8`:
byte sequences to code-point sequences, rejecting overlong forms,
surrogates and out-of-range values. -/

def isCont (b : Nat) : Bool := 128 ≤ b && b ≤ 191

/-- One continuation byte after a 2-byte leading byte. -/
def utf8Cont1 (b : Nat) : List Nat → Option (Nat × List Nat)
  | b2 :: rest2 =>
    if isCont b2 then some ((b - 192) * 64 + (b2 - 128), rest2) else none
  | [] => none

/-- Two continuation bytes after a 3-byte leading byte; the first one is
restricted to `[lo2, hi2]` (tighter than a plain continuation byte for 0xE0
and 0xED, ruling out overlong forms and surrogates). -/
def utf8Cont2 (b lo2 hi2 : Nat) : List Nat → Option (Nat × List Nat)
  | b2 :: b3 :: rest3 =>
    if (lo2 ≤ b2 && b2 ≤ hi2) && isCont b3 then
      some ((b - 224) * 4096 + (b2 - 128) * 64 + (b3 - 128), rest3)
    else none
  | _ => none

/-- Three continuation bytes after a 4-byte leading byte; the first one is
restricted to `[lo2, hi2]` (tighter than a plain continuation byte for 0xF0
and 0xF4, ruling out overlong forms and values past U+10FFFF). -/
def utf8Cont3 (b lo2 hi2 : Nat) : List Nat → Option (Nat × List Nat)
  | b2 :: b3 :: b4 :: rest4 =>
    if (lo2 ≤ b2 && b2 ≤ hi2) && isCont b3 && isCont b4 then
      some ((b - 240) * 262144 + (b2 - 128) * 4096 + (b3 - 128) * 64 + (b4 - 128),
        rest4)
    else none
  | _ => none

/-- Decode one UTF-8 code point from the front of the byte list. -/
def utf8Step : List Nat → Option (Nat × List Nat)
  | [] => none
  | b :: rest =>
    if b < 128 then some (b, rest)
    else if 194 ≤ b && b ≤ 223 then utf8Cont1 b rest
    else if b == 224 then utf8Cont2 b 160 191 rest
    else if (225 ≤ b && b ≤ 236) || b == 238 || b == 239 then utf8Cont2 b 128 191 rest
    else if b == 237 then utf8Cont2 b 128 159 rest
    else if b == 240 then utf8Cont3 b 144 191 rest
    else if 241 ≤ b && b ≤ 243 then utf8Cont3 b 128 191 rest
    else if b == 244 then utf8Cont3 b 128 143 rest
    else none

/-- The decoding loop; the fuel is the byte count, which each step strictly
decreases, so the function is structurally recursive. -/
def utf8DecodeGo : Nat → List Nat → Option (List Nat)
  | _, [] => some []
  | 0, _ :: _ => none
  | fuel + 1, b :: rest =>
    match utf8Step (b :: rest) with
    | none => none
    | some cr => (utf8DecodeGo fuel cr.2).map (fun cs => cr.1 :: cs)

def utf8Decode (l : List Nat) : Option (List Nat) := utf8DecodeGo l.length l

/-- `char::is_control`: the Unicode Cc category. -/
def isControlChar (c : Nat) : Bool := c < 32 || (127 ≤ c && c ≤ 159)

/-- `str::trim_end_matches(char::is_control)`. -/
def rtrimControl (l : List Nat) : List Nat :=
  (l.reverse.dropWhile isControlChar).reverse

/-- `buf_to_string` from `src/wadd.rs`: cut the buffer at the first NUL byte,
validate the prefix as UTF-8, and trim trailing control characters; `none`
models the `Err` branch. -/
def buf_to_string (buf : List Nat) : Option (List Nat) :=
  (utf8Decode (buf.takeWhile (fun c => c != 0))).map rtrimControl

/-- A Lean string literal as the list of its character code points (all the
string constants of the program are ASCII, so these coincide with the bytes). -/
def strBytes (s : String) : List Nat := s.toList.map Char.toNat

/-! The record types of `src/wadd.rs`. -/

structure Vertex where
  x : Int
  y : Int
deriving DecidableEq

structure LineDef where
  vertex_begin : Int
  vertex_end : Int
  flags : Int
  line_type : Int
  sector_tag : Int
  sidedef_right : Int
  sidedef_left : Int
deriving DecidableEq

structure SideDef where
  x : Int
  y : Int
  upper_texture : Option (List Nat)
  lower_texture : Option (List Nat)
  middle_texture : Option (List Nat)
  sector : Nat
deriving DecidableEq

structure Sector where
  floor_height : Int
  ceiling_height : Int
  floor_texture : List Nat
  ceiling_texture : List Nat
  light_level : Int
  special : Nat
  sector_tag : Nat
deriving DecidableEq

structure Thing where
  x : Int
  y : Int
  angle : Int
  thing_type : Int
  spawn_flags : Int
deriving DecidableEq

structure DirectoryEntry where
  name : List Nat
  offset : Int
  size : Int
deriving DecidableEq

structure MapData where
  name : List Nat
  linedefs : List LineDef
  sectors : List Sector
  sidedefs : List SideDef
  things : List Thing
  vertexes : List Vertex
deriving DecidableEq

/-! Record decoders from `src/wadd.rs`.  Each decoder asserts that the lump's
byte size is a multiple of the record size (an `assert!` panic is modelled as
`none`), then decodes `entry.size / record_size` records sequentially starting
at `entry.offset`, field-slicing each record with little-endian decoding.
`entry.size` and `entry.offset` are the `i32` values read from the directory;
a Rust range `0..n` over a non-positive `i32` count is empty, which
`Int.toNat` reproduces. -/

def decodeLinedefRecord (file : List Nat) (base : Nat) : LineDef where
  vertex_begin := word file base
  vertex_end := word file (base + 2)
  flags := word file (base + 4)
  line_type := word file (base + 6)
  sector_tag := word file (base + 8)
  sidedef_right := word file (base + 10)
  sidedef_left := word file (base + 12)

def decode_linedefs (file : List Nat) (entry : DirectoryEntry) : Option (List LineDef) :=
  if (14 : Int) ∣ entry.size then
    some ((List.range (entry.size / 14).toNat).map
      (fun i => decodeLinedefRecord file (entry.offset.toNat + 14 * i)))
  else none

def decodeVertexRecord (file : List Nat) (base : Nat) : Vertex where
  x := word file base
  y := word file (base + 2)

def decode_vertexes (file : List Nat) (entry : DirectoryEntry) : Option (List Vertex) :=
  if (4 : Int) ∣ entry.size then
    some ((List.range (entry.size / 4).toNat).map
      (fun i => decodeVertexRecord file (entry.offset.toNat + 4 * i)))
  else none

def decodeThingRecord (file : List Nat) (base : Nat) : Thing where
  x := word file base
  y := word file (base + 2)
  angle := word file (base + 4)
  thing_type := word file (base + 6)
  spawn_flags := word file (base + 8)

def decode_things (file : List Nat) (entry : DirectoryEntry) : Option (List Thing) :=
  if (10 : Int) ∣ entry.size then
    some ((List.range (entry.size / 10).toNat).map
      (fun i => decodeThingRecord file (entry.offset.toNat + 10 * i)))
  else none

/-- The `"-"` texture placeholder (`NO_TEXTURE_PLACEHOLDER` in the source). -/
def noTexturePlaceholder : List Nat := strBytes "-"

/-- One SideDef record.  Texture names go through `buf_to_fstr(...).filter(...)`:
an invalid or `"-"` name silently becomes `None`, so the record itself never
fails to decode. -/
def decodeSidedefRecord (file : List Nat) (base : Nat) : SideDef where
  x := word file base
  y := word file (base + 2)
  upper_texture :=
    (buf_to_string (sliceAt file (base + 4) 8)).filter (fun s => s != noTexturePlaceholder)
  lower_texture :=
    (buf_to_string (sliceAt file (base + 12) 8)).filter (fun s => s != noTexturePlaceholder)
  middle_texture :=
    (buf_to_string (sliceAt file (base + 20) 8)).filter (fun s => s != noTexturePlaceholder)
  sector := uword file (base + 28)

def decode_sidedefs (file : List Nat) (entry : DirectoryEntry) : Option (List SideDef) :=
  if (30 : Int) ∣ entry.size then
    some ((List.range (entry.size / 30).toNat).map
      (fun i => decodeSidedefRecord file (entry.offset.toNat + 30 * i)))
  else none

/-- One Sector record.  The two texture names go through
`buf_to_fstr(...).expect(...)`: an invalid name panics, modelled as `none`. -/
def decodeSectorRecord (file : List Nat) (base : Nat) : Option Sector :=
  match buf_to_string (sliceAt file (base + 4) 8),
        buf_to_string (sliceAt file (base + 12) 8) with
  | some ft, some ct =>
    some { floor_height := word file base
           ceiling_height := word file (base + 2)
           floor_texture := ft
           ceiling_texture := ct
           light_level := word file (base + 20)
           special := uword file (base + 22)
           sector_tag := uword file (base + 24) }
  | _, _ => none

def decodeSectorsFrom (file : List Nat) : Nat → Nat → Option (List Sector)
  | 0, _ => some []
  | n + 1, base =>
    match decodeSectorRecord file base, decodeSectorsFrom file n (base + 26) with
    | some s, some rest => some (s :: rest)
    | _, _ => none

def decode_sectors (file : List Nat) (entry : DirectoryEntry) : Option (List Sector) :=
  if (26 : Int) ∣ entry.size then
    decodeSectorsFrom file (entry.size / 26).toNat entry.offset.toNat
  else none

/-! Directory decoding (`decode_directory` in `src/wadd.rs`).  Entry `i` is
16 bytes at `offset + i*16`: an `i32 LE` lump offset, an `i32 LE` lump size and
an 8-byte name.  A name that fails `buf_to_string` aborts the decode via
`expect`, whose message carries the entry index and the entry's byte offset;
the model's error value carries that pair. -/

inductive DirResult where
  | ok : List DirectoryEntry → DirResult
  | err : Nat → Int → DirResult
deriving DecidableEq

def decodeDirGo (file : List Nat) (offset : Int) : Nat → Nat → DirResult
  | 0, _ => .ok []
  | count + 1, i =>
    let entryOffset : Int := offset + (i : Int) * 16
    let base := entryOffset.toNat
    match buf_to_string (sliceAt file (base + 8) 8) with
    | none => .err i entryOffset
    | some nm =>
      match decodeDirGo file offset count (i + 1) with
      | .err j o => .err j o
      | .ok rest => .ok (⟨nm, dword file base, dword file (base + 4)⟩ :: rest)

def decode_directory (file : List Nat) (offset : Int) (numEntries : Int) : DirResult :=
  decodeDirGo file offset numEntries.toNat 0

/-- The 16-byte directory-entry layout of §6, used for the round-trip
property: `i32 LE` offset, `i32 LE` size, 8-byte NUL-padded name. -/
def encode32 (v : Int) : List Nat :=
  [(v % 4294967296).toNat % 256, (v % 4294967296).toNat / 256 % 256,
   (v % 4294967296).toNat / 65536 % 256, (v % 4294967296).toNat / 16777216 % 256]

def padName (name : List Nat) : List Nat :=
  name ++ List.replicate (8 - name.length) 0

def encodeDirectoryEntry (offset size : Int) (name : List Nat) : List Nat :=
  encode32 offset ++ encode32 size ++ padName name

/-! Map assembly (`decode_maps` in `src/wadd.rs`).  The directory is scanned
linearly; an entry with `size == 0 && offset > 0` is a map marker, and the run
of recognized lump names following it is collected into a `HashMap` keyed by
lump name (modelled as an association list with replace-on-insert, observed
only through lookups).  The outer `for mut i in 0..directory.len()` loop visits
every index even when the inner `loop` has already consumed it, and the inner
`directory.get(i).unwrap()` panics (modelled as `none`) when the run walks past
the end of the directory. -/

def map_lump_names : List (List Nat) :=
  [strBytes "BLOCKMAP", strBytes "LINEDEFS", strBytes "NODES", strBytes "REJECT",
   strBytes "SCRIPTS", strBytes "SECTORS", strBytes "SEGS", strBytes "SIDEDEFS",
   strBytes "SSECTORS", strBytes "THINGS", strBytes "VERTEXES"]

abbrev Lumps := List (List Nat × DirectoryEntry)

def lookupA {β : Type} (k : List Nat) : List (List Nat × β) → Option β
  | [] => none
  | (k2, v) :: t => if k2 = k then some v else lookupA k t

def insertRep {β : Type} (m : List (List Nat × β)) (k : List Nat) (v : β) :
    List (List Nat × β) :=
  match m with
  | [] => [(k, v)]
  | (k2, v2) :: t => if k2 = k then (k, v) :: t else (k2, v2) :: insertRep t k v

/-- The inner `loop` of `decode_maps`, walking the directory entries after a
marker: recognized names are inserted into the lump map, the first
unrecognized name ends the run, and running off the end of the directory is
the `get(i).unwrap()` panic. -/
def runFrom (acc : Lumps) : List DirectoryEntry → Option Lumps
  | [] => none
  | e :: rest =>
    if e.name ∈ map_lump_names then runFrom (insertRep acc e.name e) rest
    else some acc

/-- The outer scan of `decode_maps`: every entry is examined (the loop variable
is reassigned inside the Rust loop body, but the range iterator still yields
every index), and each marker's run is inserted under the marker's name,
replacing any earlier map with the same name. -/
def scanGo (acc : List (List Nat × Lumps)) : List DirectoryEntry →
    Option (List (List Nat × Lumps))
  | [] => some acc
  | e :: rest =>
    if e.size = 0 ∧ e.offset > 0 then
      match runFrom [] rest with
      | none => none
      | some lumps => scanGo (insertRep acc e.name lumps) rest
    else scanGo acc rest

def scanMaps (directory : List DirectoryEntry) : Option (List (List Nat × Lumps)) :=
  scanGo [] directory

/-- `decode_lumps`: a lump type with no directory entry in the map's set
decodes to the empty vector; a present entry runs its decoder (which may
panic). -/
def decode_lumps {T : Type} (file : List Nat) (lumps : Lumps) (name : List Nat)
    (dec : List Nat → DirectoryEntry → Option (List T)) : Option (List T) :=
  match lookupA name lumps with
  | none => some []
  | some e => dec file e

def buildMapData (file : List Nat) (name : List Nat) (lumps : Lumps) :
    Option MapData := do
  let linedefs ← decode_lumps file lumps (strBytes "LINEDEFS") decode_linedefs
  let things ← decode_lumps file lumps (strBytes "THINGS") decode_things
  let vertexes ← decode_lumps file lumps (strBytes "VERTEXES") decode_vertexes
  let sidedefs ← decode_lumps file lumps (strBytes "SIDEDEFS") decode_sidedefs
  let sectors ← decode_lumps file lumps (strBytes "SECTORS") decode_sectors
  pure { name := name, linedefs := linedefs, sectors := sectors,
         sidedefs := sidedefs, things := things, vertexes := vertexes }

/-- Lexicographic byte-wise order on names, for `maps.sort_by_key`. -/
def nameLe : List Nat → List Nat → Bool
  | [], _ => true
  | _ :: _, [] => false
  | a :: s, b :: t => if a < b then true else if b < a then false else nameLe s t

def insertSorted (m : MapData) : List MapData → List MapData
  | [] => [m]
  | m2 :: t => if nameLe m.name m2.name then m :: m2 :: t else m2 :: insertSorted m t

def sortByName : List MapData → List MapData
  | [] => []
  | m :: t => insertSorted m (sortByName t)

def decode_maps (file : List Nat) (directory : List DirectoryEntry) :
    Option (List MapData) := do
  let assoc ← scanMaps directory
  let maps ← assoc.mapM (fun nl => buildMapData file nl.1 nl.2)
  pure (sortByName maps)

/-! Sector-boundary stitching (`extract_map` in `src/main.rs`, lines 159-199).
A sector's working list holds `(Vertex, Vertex, LineDef)` triples.  The outer
loop removes the first remaining segment to start a new loop; the inner
`while let` repeatedly finds (by `Iterator::position`, i.e. first match in
list order) a segment with either endpoint equal to the current endpoint,
removes it (`Vec::remove`) and continues from its other endpoint.  The
functions use explicit fuel equal to the list length, which each step strictly
decreases, so they are structurally recursive and evaluate by `decide`. -/

abbrev Line := Vertex × Vertex × LineDef

/-- `Iterator::position`. -/
def position {α : Type} (p : α → Bool) : List α → Option Nat
  | [] => none
  | a :: l => if p a then some 0 else (position p l).map (fun n => n + 1)

/-- `Vec::remove` (only ever called with an in-bounds index). -/
def removeAt {α : Type} : List α → Nat → List α
  | [], _ => []
  | _ :: l, 0 => l
  | a :: l, n + 1 => a :: removeAt l n

/-- The predicate of the inner `position` call: either endpoint of the
candidate segment equals the current endpoint. -/
def endpointMatches (cur : Vertex) (s : Line) : Bool :=
  s.1 == cur || s.2.1 == cur

def chaseGo (fuel : Nat) (cur : Vertex) (pending : List Line) :
    List Vertex × List Line :=
  match fuel with
  | 0 => ([], pending)
  | fuel + 1 =>
    match position (endpointMatches cur) pending with
    | none => ([], pending)
    | some i =>
      match pending[i]? with
      | none => ([], pending)
      | some s =>
        let nxt := if s.2.1 == cur then s.1 else s.2.1
        let r := chaseGo fuel nxt (removeAt pending i)
        (nxt :: r.1, r.2)

/-- The inner `while let` loop: the appended vertices and the segments left
over when no match is found. -/
def chase (cur : Vertex) (pending : List Line) : List Vertex × List Line :=
  chaseGo pending.length cur pending

def stitchGo (fuel : Nat) (pending : List Line) : List (List Vertex) × List Nat :=
  match fuel with
  | 0 => ([], [])
  | fuel + 1 =>
    match pending with
    | [] => ([], [])
    | first :: rest =>
      let warns := if pending.length < 2 then [pending.length] else []
      let c := chase first.2.1 rest
      let r := stitchGo fuel c.2
      ((first.1 :: first.2.1 :: c.1) :: r.1, warns ++ r.2)

/-- The outer `while !pending_lines.is_empty()` loop: the sequence of loops
(each a point list, starting with the first segment's two stored endpoints)
together with the warnings (the remaining-segment counts printed by the
`WARNING: Sector {} only has {} lines left` branch, taken when a loop starts
with fewer than 2 segments remaining). -/
def stitchAll (pending : List Line) : List (List Vertex) × List Nat :=
  stitchGo pending.length pending

/-! The same stitching procedure transcribed from the specification's words
(§4.4 step 3): take the first remaining segment with either endpoint equal to
the current endpoint, remove it and append the *other* endpoint.  Used for the
refinement claim. -/

def extractMatch (cur : Vertex) : List Line → Option (Line × List Line)
  | [] => none
  | s :: rest =>
    if s.1 = cur ∨ s.2.1 = cur then some (s, rest)
    else
      match extractMatch cur rest with
      | none => none
      | some (m, rest2) => some (m, s :: rest2)

def chaseSpecGo (fuel : Nat) (cur : Vertex) (pending : List Line) :
    List Vertex × List Line :=
  match fuel with
  | 0 => ([], pending)
  | fuel + 1 =>
    match extractMatch cur pending with
    | none => ([], pending)
    | some (s, rest) =>
      let nxt := if s.1 = cur then s.2.1 else s.1
      let r := chaseSpecGo fuel nxt rest
      (nxt :: r.1, r.2)

def chaseSpec (cur : Vertex) (pending : List Line) : List Vertex × List Line :=
  chaseSpecGo pending.length cur pending

def stitchSpecGo (fuel : Nat) (pending : List Line) : List (List Vertex) :=
  match fuel with
  | 0 => []
  | fuel + 1 =>
    match pending with
    | [] => []
    | first :: rest =>
      let c := chaseSpec first.2.1 rest
      (first.1 :: first.2.1 :: c.1) :: stitchSpecGo fuel c.2

def stitchSpecAll (pending : List Line) : List (List Vertex) :=
  stitchSpecGo pending.length pending

/-! The rest of `extract_map` (`src/main.rs` lines 49-237): vertex resolution
(`as usize` of a negative `i16` index is out of bounds, a panic), the
`assert!(lines.len() > 0)`, the extent computation, per-sector membership
filtering, the vertical flip, per-sector stitching, and the final
`sectors[0].lines` access (a panic when the map has no sectors). -/

def vertexAt (vs : List Vertex) (idx : Int) : Option Vertex :=
  if 0 ≤ idx then vs[idx.toNat]? else none

def lineOfLinedef (vs : List Vertex) (ld : LineDef) : Option (Vertex × Vertex) := do
  let v1 ← vertexAt vs ld.vertex_begin
  let v2 ← vertexAt vs ld.vertex_end
  pure (v1, v2)

/-- One side's membership test (`linedef.sidedef_right >= 0` and the indexed
SideDef's `sector` field): `none` is the out-of-bounds indexing panic. -/
def sideMatches (sidedefs : List SideDef) (idx : Int) (S : Nat) : Option Bool :=
  if 0 ≤ idx then
    match sidedefs[idx.toNat]? with
    | none => none
    | some sd => some (sd.sector == S)
  else some false

/-- The membership filter closure: right side first, and the left side is only
consulted when the right side does not match. -/
def lineInSector (sidedefs : List SideDef) (S : Nat) (ld : LineDef) : Option Bool :=
  match sideMatches sidedefs ld.sidedef_right S with
  | none => none
  | some true => some true
  | some false => sideMatches sidedefs ld.sidedef_left S

def sectorLinesGo (sidedefs : List SideDef) (S : Nat) : List LineDef →
    Option (List LineDef)
  | [] => some []
  | ld :: rest =>
    match lineInSector sidedefs S ld, sectorLinesGo sidedefs S rest with
    | some true, some t => some (ld :: t)
    | some false, some t => some t
    | _, _ => none

/-- The `sector_lines` filter of `extract_map`: the LineDefs of the map that
belong to sector index `S`. -/
def sectorLines (map : MapData) (S : Nat) : Option (List LineDef) :=
  sectorLinesGo map.sidedefs S map.linedefs

/-- The vertical-axis flip applied to each resolved vertex. -/
def flipY (minY maxY : Int) (v : Vertex) : Vertex :=
  { x := v.x, y := maxY - (v.y - minY) }

/-- The `vertex_lines` of one `RenderableSector`. -/
def sectorVertexLines (map : MapData) (minY maxY : Int) (S : Nat) :
    Option (List Line) := do
  let lds ← sectorLines map S
  lds.mapM (fun ld => do
    let vv ← lineOfLinedef map.vertexes ld
    pure (flipY minY maxY vv.1, flipY minY maxY vv.2, ld))

structure ExtractOutput where
  width : Int
  height : Int
  loops : List (List (List Vertex))
  warnings : List (Nat × Nat)
deriving DecidableEq

def extract_map (map : MapData) : Option ExtractOutput := do
  let lines ← map.linedefs.mapM (lineOfLinedef map.vertexes)
  if lines.isEmpty then none
  else
    let xs := lines.map (fun li => min li.1.x li.2.x)
    let min_x := xs.foldl min (xs.headD 0)
    let xs2 := lines.map (fun li => max li.1.x li.2.x)
    let max_x := xs2.foldl max (xs2.headD 0)
    let ys := lines.map (fun li => min li.1.y li.2.y)
    let min_y := ys.foldl min (ys.headD 0)
    let ys2 := lines.map (fun li => max li.1.y li.2.y)
    let max_y := ys2.foldl max (ys2.headD 0)
    let sectorLs ← (List.range map.sectors.length).mapM
      (sectorVertexLines map min_y max_y)
    let stitched := sectorLs.map stitchAll
    if map.sectors.isEmpty then none
    else
      pure { width := max_x - min_x, height := max_y - min_y,
             loops := stitched.map (fun p => p.1),
             warnings := (List.range stitched.length).zip stitched |>.flatMap
               (fun iw => iw.2.2.map (fun c => (iw.1, c))) }

/-- The `svg` command with no map name: extract every assembled map in turn;
a panic in any reached map aborts the whole run. -/
def extract_all (maps : List MapData) : Option (List ExtractOutput) :=
  maps.mapM extract_map

/-! Abstract predicates used only to state claims (they quantify over the
shapes of inputs the claims talk about, and are not part of the embedding). -/

/-- The segment `s` is the edge `e`, in either stored orientation. -/
def matchesEdge (s : Line) (e : Vertex × Vertex) : Prop :=
  (s.1 = e.1 ∧ s.2.1 = e.2) ∨ (s.1 = e.2 ∧ s.2.1 = e.1)

/-- The consecutive edges of a vertex path. -/
def pathEdges : List Vertex → List (Vertex × Vertex)
  | [] => []
  | [_] => []
  | a :: b :: r => (a, b) :: pathEdges (b :: r)

/-- The segment list is, up to list order and per-segment orientation, the
edge list of the vertex path `vs`. -/
def SegsFormPath (pending : List Line) (vs : List Vertex) : Prop :=
  ∃ es, List.Forall₂ matchesEdge pending es ∧ es.Perm (pathEdges vs)

def cycleEdges (a b c d : Vertex) : List (Vertex × Vertex) :=
  [(a, b), (b, c), (c, d), (d, a)]

/-- The segment list is, up to list order and per-segment orientation, the
four edges of the quadrilateral `a b c d`. -/
def SegsFormQuad (pending : List Line) (a b c d : Vertex) : Prop :=
  ∃ es, List.Forall₂ matchesEdge pending es ∧ es.Perm (cycleEdges a b c d)

/-- The specification's membership condition (§4.4 step 1): one of the two
side indices is non-negative and the SideDef at that index references
sector `S`. -/
def memSpec (sidedefs : List SideDef) (S : Nat) (ld : LineDef) : Prop :=
  (0 ≤ ld.sidedef_right ∧
    ∃ sd, sidedefs[ld.sidedef_right.toNat]? = some sd ∧ sd.sector = S) ∨
  (0 ≤ ld.sidedef_left ∧
    ∃ sd, sidedefs[ld.sidedef_left.toNat]? = some sd ∧ sd.sector = S)

/-- Every side index a LineDef of the map actually stores is in bounds for the
map's SideDef list (the program panics on out-of-bounds indices, so the
membership claim is about maps where the filter runs to completion). -/
def SideIndexesInBounds (map : MapData) : Prop :=
  ∀ ld ∈ map.linedefs,
    (0 ≤ ld.sidedef_right → ld.sidedef_right.toNat < map.sidedefs.length) ∧
    (0 ≤ ld.sidedef_left → ld.sidedef_left.toNat < map.sidedefs.length)

/-- A well-formed lump name for the round-trip property: at most 8 printable
ASCII characters (no NULs, so the padding boundary is unambiguous, and no
control characters, so decode-side trimming removes nothing). -/
def ValidName (name : List Nat) : Prop :=
  name.length ≤ 8 ∧ ∀ b ∈ name, 32 ≤ b ∧ b < 127

/-! Lemmas about the list primitives used by the stitcher. -/

theorem removeAt_length_le {α : Type} (l : List α) (i : Nat) :
    (removeAt l i).length ≤ l.length := by
  induction l generalizing i with
  | nil => simp [removeAt]
  | cons a t ih =>
    cases i with
    | zero => simp [removeAt]
    | succ n =>
      have := ih n
      simp only [removeAt, List.length_cons]
      omega

theorem removeAt_length_eq {α : Type} {l : List α} {i : Nat} (h : i < l.length) :
    (removeAt l i).length + 1 = l.length := by
  induction l generalizing i with
  | nil => simp at h
  | cons a t ih =>
    cases i with
    | zero => simp [removeAt]
    | succ n =>
      have := ih (Nat.lt_of_succ_lt_succ h)
      simp only [removeAt, List.length_cons]
      omega

theorem lt_of_getElem?_some {α : Type} {l : List α} {i : Nat} {a : α}
    (h : l[i]? = some a) : i < l.length := by
  by_contra hn
  rw [List.getElem?_eq_none (Nat.le_of_not_lt hn)] at h
  simp at h

/-! Structural lemmas about `chaseGo`/`stitchGo`: the fuel argument is
irrelevant as long as it is at least the list length, each step consumes
exactly the matched segments, and the remainder never grows. -/

theorem chaseGo_rem_le (fuel : Nat) : ∀ (cur : Vertex) (pending : List Line),
    (chaseGo fuel cur pending).2.length ≤ pending.length := by
  induction fuel with
  | zero => intro cur pending; simp [chaseGo]
  | succ n ih =>
    intro cur pending
    simp only [chaseGo]
    split
    · simp
    · rename_i i hp
      split
      · simp
      · rename_i s hg
        dsimp only
        have h1 := ih (if s.2.1 == cur then s.1 else s.2.1) (removeAt pending i)
        have h2 := removeAt_length_le pending i
        omega

theorem chaseGo_consumed (fuel : Nat) : ∀ (cur : Vertex) (pending : List Line),
    pending.length ≤ fuel →
    (chaseGo fuel cur pending).1.length + (chaseGo fuel cur pending).2.length
      = pending.length := by
  induction fuel with
  | zero => intro cur pending h; simp [chaseGo]
  | succ n ih =>
    intro cur pending h
    simp only [chaseGo]
    split
    · simp
    · rename_i i hp
      split
      · simp
      · rename_i s hg
        dsimp only
        have hi : i < pending.length := lt_of_getElem?_some hg
        have hr := removeAt_length_eq hi
        have h1 := ih (if s.2.1 == cur then s.1 else s.2.1) (removeAt pending i)
          (by omega)
        simp only [List.length_cons]
        omega

theorem chase_rem_le (cur : Vertex) (pending : List Line) :
    (chase cur pending).2.length ≤ pending.length :=
  chaseGo_rem_le pending.length cur pending

theorem chase_consumed (cur : Vertex) (pending : List Line) :
    (chase cur pending).1.length + (chase cur pending).2.length = pending.length :=
  chaseGo_consumed pending.length cur pending (Nat.le_refl _)

theorem stitchGo_fuel_invariant : ∀ (f1 f2 : Nat) (pending : List Line),
    pending.length ≤ f1 → pending.length ≤ f2 →
    stitchGo f1 pending = stitchGo f2 pending := by
  intro f1
  induction f1 with
  | zero =>
    intro f2 pending h1 _
    have hp : pending = [] := List.eq_nil_of_length_eq_zero (Nat.le_zero.mp h1)
    subst hp
    cases f2 <;> simp [stitchGo]
  | succ n ih =>
    intro f2 pending h1 h2
    cases f2 with
    | zero =>
      have hp : pending = [] := List.eq_nil_of_length_eq_zero (Nat.le_zero.mp h2)
      subst hp
      simp [stitchGo]
    | succ m =>
      cases pending with
      | nil => simp [stitchGo]
      | cons first rest =>
        simp only [stitchGo]
        have hrem := chase_rem_le first.2.1 rest
        have := ih m (chase first.2.1 rest).2
          (by simp only [List.length_cons] at h1; omega)
          (by simp only [List.length_cons] at h2; omega)
        rw [this]

theorem stitchAll_cons (first : Line) (rest : List Line) :
    stitchAll (first :: rest) =
      ((first.1 :: first.2.1 :: (chase first.2.1 rest).1)
          :: (stitchAll (chase first.2.1 rest).2).1,
        (if rest.length + 1 < 2 then [rest.length + 1] else [])
          ++ (stitchAll (chase first.2.1 rest).2).2) := by
  have hrem := chase_rem_le first.2.1 rest
  unfold stitchAll
  simp only [List.length_cons, stitchGo]
  rw [stitchGo_fuel_invariant rest.length (chase first.2.1 rest).2.length
    (chase first.2.1 rest).2 hrem (Nat.le_refl _)]

/-! Refinement: the code-side chase (scan with `position`, `Vec::remove`,
re-orientation by comparing the stored second endpoint) coincides with the
specification-side chase (take the first segment with either endpoint equal to
the current endpoint, continue from the other endpoint). -/

theorem endpointMatches_iff (cur : Vertex) (s : Line) :
    endpointMatches cur s = true ↔ (s.1 = cur ∨ s.2.1 = cur) := by
  simp [endpointMatches]

theorem extractMatch_eq (cur : Vertex) : ∀ l : List Line,
    extractMatch cur l = (position (endpointMatches cur) l).bind
      (fun i => (l[i]?).map (fun s => (s, removeAt l i))) := by
  intro l
  induction l with
  | nil => rfl
  | cons a t ih =>
    by_cases hp : a.1 = cur ∨ a.2.1 = cur
    · have hb : endpointMatches cur a = true := (endpointMatches_iff cur a).mpr hp
      simp [extractMatch, position, hp, hb, removeAt]
    · have hb : endpointMatches cur a = false := by
        rw [← Bool.not_eq_true, endpointMatches_iff]
        exact hp
      rw [extractMatch, if_neg hp]
      rw [position, hb]
      simp only [Bool.false_eq_true, if_false]
      rw [ih]
      cases hpos : position (endpointMatches cur) t with
      | none => simp
      | some i =>
        simp only [Option.map_some, Option.some_bind, List.getElem?_cons_succ]
        cases hget : t[i]? with
        | none => simp [hget]
        | some s => simp [hget, removeAt]

theorem extractMatch_some_matches (cur : Vertex) : ∀ {l : List Line}
    {s : Line} {rest : List Line},
    extractMatch cur l = some (s, rest) → s.1 = cur ∨ s.2.1 = cur := by
  intro l
  induction l with
  | nil => intro s rest h; simp [extractMatch] at h
  | cons a t ih =>
    intro s rest h
    by_cases hp : a.1 = cur ∨ a.2.1 = cur
    · rw [extractMatch, if_pos hp] at h
      obtain ⟨h1, _⟩ := Prod.mk.injEq .. ▸ (Option.some.injEq _ _ ▸ h)
      exact h1 ▸ hp
    · rw [extractMatch, if_neg hp] at h
      cases hrec : extractMatch cur t with
      | none => rw [hrec] at h; simp at h
      | some p =>
        rw [hrec] at h
        cases p with
        | mk m rest2 =>
          simp only [Option.some.injEq, Prod.mk.injEq] at h
          exact h.1 ▸ ih hrec

theorem chaseGo_eq_spec (fuel : Nat) : ∀ (cur : Vertex) (pending : List Line),
    chaseGo fuel cur pending = chaseSpecGo fuel cur pending := by
  induction fuel with
  | zero => intro cur pending; rfl
  | succ n ih =>
    intro cur pending
    simp only [chaseGo, chaseSpecGo]
    rw [extractMatch_eq]
    cases hp : position (endpointMatches cur) pending with
    | none => simp
    | some i =>
      simp only [Option.some_bind]
      cases hg : pending[i]? with
      | none => simp
      | some s =>
        have hmatch : s.1 = cur ∨ s.2.1 = cur :=
          @extractMatch_some_matches cur pending s (removeAt pending i)
            (by rw [extractMatch_eq, hp]; simp [hg])
        have hnxt : (if s.2.1 == cur then s.1 else s.2.1)
            = (if s.1 = cur then s.2.1 else s.1) := by
          by_cases hA : s.1 = cur <;> by_cases hB : s.2.1 = cur
          · simp [hA, hB]
          · simp [hA, hB]
          · simp [hA, hB]
          · exact absurd hmatch (by simp [hA, hB])
        simp only [Option.map_some, hnxt, ih]
        rfl

theorem chase_eq_spec (cur : Vertex) (pending : List Line) :
    chase cur pending = chaseSpec cur pending :=
  chaseGo_eq_spec pending.length cur pending

theorem stitchGo_fst_eq_spec (fuel : Nat) : ∀ pending : List Line,
    (stitchGo fuel pending).1 = stitchSpecGo fuel pending := by
  induction fuel with
  | zero => intro pending; rfl
  | succ n ih =>
    intro pending
    cases pending with
    | nil => rfl
    | cons first rest =>
      simp only [stitchGo, stitchSpecGo]
      rw [← chase_eq_spec, ih]

/-- Claim C1: for every sector's segment list, loop stitching proceeds exactly
as the specification describes it — remove the first remaining segment to
start a new loop at its second stored vertex, then repeatedly remove the first
remaining segment (in list order) with either endpoint coordinate-equal to the
current endpoint and append its other endpoint, starting a new loop when no
segment matches — and stitching is a deterministic function of the input
segment sequence: equal segment lists yield equal loop sequences. -/
theorem c1_stitch_follows_spec :
    (∀ pending : List Line, (stitchAll pending).1 = stitchSpecAll pending) ∧
    (∀ p q : List Line, p = q → (stitchAll p).1 = stitchSpecAll q) := by
  constructor
  · intro pending
    exact stitchGo_fst_eq_spec pending.length pending
  · intro p q h
    rw [h]
    exact stitchGo_fst_eq_spec q.length q

theorem c1_stitch_follows_spec_witness :
    (stitchAll [((⟨0,0⟩ : Vertex), (⟨10,0⟩ : Vertex), (⟨0,0,0,0,0,0,0⟩ : LineDef)),
        ((⟨10,0⟩ : Vertex), (⟨10,10⟩ : Vertex), (⟨0,0,0,0,0,0,0⟩ : LineDef))]).1 =
      stitchSpecAll [((⟨0,0⟩ : Vertex), (⟨10,0⟩ : Vertex), (⟨0,0,0,0,0,0,0⟩ : LineDef)),
        ((⟨10,0⟩ : Vertex), (⟨10,10⟩ : Vertex), (⟨0,0,0,0,0,0,0⟩ : LineDef))] :=
  c1_stitch_follows_spec.2 _ _ rfl

/-- Claim C2 counterexample: the sector segment list made of the two chained
segments (0,0)-(10,0) and (10,0)-(20,0) stitches to the single open loop
[(0,0),(10,0),(20,0)] — its last point differs from its first — yet the
warning list is empty: an open loop is not reported unless it happened to
start with fewer than two segments remaining. -/
theorem c2_counterexample_open_loop_no_warning :
    stitchAll [((⟨0,0⟩ : Vertex), (⟨10,0⟩ : Vertex), (⟨0,0,0,0,0,0,0⟩ : LineDef)),
        ((⟨10,0⟩ : Vertex), (⟨20,0⟩ : Vertex), (⟨0,0,0,0,0,0,0⟩ : LineDef))]
      = ([[⟨0,0⟩, ⟨10,0⟩, ⟨20,0⟩]], []) ∧
    ([(⟨0,0⟩ : Vertex), ⟨10,0⟩, ⟨20,0⟩].head?
      ≠ [(⟨0,0⟩ : Vertex), ⟨10,0⟩, ⟨20,0⟩].getLast?) := by
  decide

theorem stitch_loop_sum_go (n : Nat) : ∀ pending : List Line,
    pending.length ≤ n →
    ((stitchAll pending).1.map (fun L => L.length - 1)).sum = pending.length := by
  induction n with
  | zero =>
    intro pending h
    have hp : pending = [] := List.eq_nil_of_length_eq_zero (Nat.le_zero.mp h)
    subst hp
    rfl
  | succ n ih =>
    intro pending h
    cases pending with
    | nil => rfl
    | cons first rest =>
      rw [stitchAll_cons]
      have hc := chase_consumed first.2.1 rest
      have hrem := chase_rem_le first.2.1 rest
      have hrec := ih (chase first.2.1 rest).2
        (by simp only [List.length_cons] at h; omega)
      simp only [List.map_cons, List.sum_cons, List.length_cons]
      omega

theorem stitch_warnings_go (n : Nat) : ∀ pending : List Line,
    pending.length ≤ n → ∀ w ∈ (stitchAll pending).2, w = 1 := by
  induction n with
  | zero =>
    intro pending h w hw
    have hp : pending = [] := List.eq_nil_of_length_eq_zero (Nat.le_zero.mp h)
    subst hp
    simp [stitchAll, stitchGo] at hw
  | succ n ih =>
    intro pending h w hw
    cases pending with
    | nil => simp [stitchAll, stitchGo] at hw
    | cons first rest =>
      rw [stitchAll_cons] at hw
      have hrem := chase_rem_le first.2.1 rest
      simp only [List.mem_append] at hw
      rcases hw with hw | hw
      · by_cases hr : rest.length + 1 < 2
        · rw [if_pos hr] at hw
          simp only [List.mem_singleton] at hw
          omega
        · rw [if_neg hr] at hw
          simp at hw
      · exact ih (chase first.2.1 rest).2
          (by simp only [List.length_cons] at h; omega) w hw

/-- Claim C2 (amended): an open loop is emitted exactly as stitched — every
emitted loop has exactly one more point than the segments consumed for it, so
loops are never force-closed and stitching always runs to completion consuming
every segment — and the warning (whose remaining-segment count is necessarily
1) is emitted only when a new loop is started with fewer than two segments
remaining, not whenever a loop fails to return to its starting vertex. -/
theorem c2_open_loops_amended (pending : List Line) :
    ((stitchAll pending).1.map (fun L => L.length - 1)).sum = pending.length ∧
    ∀ w ∈ (stitchAll pending).2, w = 1 :=
  ⟨stitch_loop_sum_go pending.length pending (Nat.le_refl _),
   stitch_warnings_go pending.length pending (Nat.le_refl _)⟩

theorem c2_open_loops_amended_witness :
    ((stitchAll [((⟨0,0⟩ : Vertex), (⟨10,0⟩ : Vertex), (⟨0,0,0,0,0,0,0⟩ : LineDef)),
        ((⟨10,0⟩ : Vertex), (⟨20,0⟩ : Vertex), (⟨0,0,0,0,0,0,0⟩ : LineDef))]).1.map
        (fun L => L.length - 1)).sum = 2 ∧
    ∀ w ∈ (stitchAll [((⟨0,0⟩ : Vertex), (⟨10,0⟩ : Vertex), (⟨0,0,0,0,0,0,0⟩ : LineDef)),
        ((⟨10,0⟩ : Vertex), (⟨20,0⟩ : Vertex), (⟨0,0,0,0,0,0,0⟩ : LineDef))]).2, w = 1 :=
  c2_open_loops_amended _

/-! Claim C4: map assembly on a marker with no following lump run. -/

/-- Claim C4: the code contradicts the claim on a marker that is the last
directory entry.  The inner run loop of `decode_maps` executes
`directory.get(i).unwrap()` at index `directory.len()` and panics, so map
assembly fails rather than producing an all-empty map; a marker followed by an
unrecognized entry does produce the claimed all-empty `MapData`. -/
theorem c4_marker_as_last_entry_panics :
    scanMaps [⟨strBytes "MAP01", 12, 0⟩] = none ∧
    decode_maps [] [⟨strBytes "MAP01", 12, 0⟩] = none ∧
    decode_maps [] [⟨strBytes "MAP01", 12, 0⟩, ⟨strBytes "ENDOFWAD", 20, 5⟩]
      = some [⟨strBytes "MAP01", [], [], [], [], []⟩] := by
  decide

/-! Claim C5: record decoders, lump size checks and record counts. -/

/-- Claim C5 counterexample: a SECTORS lump whose 26-byte size is an exact
multiple of the record size still fails to decode when a texture field holds
invalid text (byte 0xFF), and a LINEDEFS entry of size -14 (an `i32` multiple
of 14) passes the assert and decodes 0 records even though
`entry.size / record_size = -1`. -/
theorem c5_counterexample_failure_not_only_size :
    (decode_sectors
        [0,0, 0,0, 255,0,0,0,0,0,0,0, 65,0,0,0,0,0,0,0, 0,0, 0,0, 0,0]
        ⟨strBytes "SECTORS", 0, 26⟩ = none ∧
      (26 : Int) ∣ 26) ∧
    (decode_linedefs [] ⟨strBytes "LINEDEFS", 0, -14⟩ = some [] ∧
      (14 : Int) ∣ (-14) ∧ ((-14 : Int) / 14 ≠ 0)) := by
  decide

theorem decode_linedefs_some (file : List Nat) (entry : DirectoryEntry)
    (l : List LineDef) (hl : decode_linedefs file entry = some l) :
    l.length = (entry.size / 14).toNat ∧
    ∀ i (h : i < l.length),
      l.get ⟨i, h⟩ = decodeLinedefRecord file (entry.offset.toNat + 14 * i) := by
  by_cases hd : (14 : Int) ∣ entry.size
  · rw [decode_linedefs, if_pos hd] at hl
    have := Option.some.inj hl
    subst this
    constructor
    · simp
    · intro i h
      simp [List.get_eq_getElem, List.getElem_map, List.getElem_range]
  · rw [decode_linedefs, if_neg hd] at hl
    exact absurd hl (by simp)

theorem decodeSectorsFrom_none_iff (file : List Nat) : ∀ (n base : Nat),
    (decodeSectorsFrom file n base = none ↔
      ∃ i, i < n ∧ decodeSectorRecord file (base + 26 * i) = none) := by
  intro n
  induction n with
  | zero => intro base; simp [decodeSectorsFrom]
  | succ n ih =>
    intro base
    rw [decodeSectorsFrom]
    cases h0 : decodeSectorRecord file base with
    | none =>
      constructor
      · intro _
        refine ⟨0, by omega, ?_⟩
        simpa using h0
      · intro _
        rfl
    | some s =>
      cases hrec : decodeSectorsFrom file n (base + 26) with
      | none =>
        obtain ⟨i, hi, hreci⟩ := (ih (base + 26)).mp hrec
        constructor
        · intro _
          refine ⟨i + 1, by omega, ?_⟩
          have harith : base + 26 * (i + 1) = base + 26 + 26 * i := by ring
          rw [harith]
          exact hreci
        · intro _
          rfl
      | some rest =>
        constructor
        · intro hcon
          simp at hcon
        · rintro ⟨i, hi, hreci⟩
          cases i with
          | zero =>
            rw [Nat.mul_zero, Nat.add_zero, h0] at hreci
            simp at hreci
          | succ j =>
            have hj : j < n := by omega
            have hnone : decodeSectorsFrom file n (base + 26) = none :=
              (ih (base + 26)).mpr ⟨j, hj, by
                have harith : base + 26 + 26 * j = base + 26 * (j + 1) := by ring
                rw [harith]
                exact hreci⟩
            rw [hrec] at hnone
            simp at hnone

theorem decodeSectorsFrom_some (file : List Nat) : ∀ (n base : Nat) (l : List Sector),
    decodeSectorsFrom file n base = some l →
    l.length = n ∧ ∀ i (h : i < l.length),
      decodeSectorRecord file (base + 26 * i) = some (l.get ⟨i, h⟩) := by
  intro n
  induction n with
  | zero =>
    intro base l hl
    rw [decodeSectorsFrom] at hl
    have := Option.some.inj hl
    subst this
    exact ⟨rfl, by intro i h; simp at h⟩
  | succ n ih =>
    intro base l hl
    rw [decodeSectorsFrom] at hl
    cases h0 : decodeSectorRecord file base with
    | none =>
      rw [h0] at hl
      simp at hl
    | some si =>
      rw [h0] at hl
      cases hrec : decodeSectorsFrom file n (base + 26) with
      | none =>
        rw [hrec] at hl
        simp at hl
      | some rest =>
        rw [hrec] at hl
        simp only [Option.some.injEq] at hl
        subst hl
        obtain ⟨hlen, hget⟩ := ih (base + 26) rest hrec
        constructor
        · simp [hlen]
        · intro i h
          cases i with
          | zero => simpa using h0
          | succ j =>
            have hj : j < rest.length := by simp at h; omega
            have hgj := hget j hj
            have harith : base + 26 * (j + 1) = base + 26 + 26 * j := by ring
            rw [harith, hgj]
            rfl

theorem decode_sectors_some (file : List Nat) (entry : DirectoryEntry)
    (l : List Sector) (hl : decode_sectors file entry = some l) :
    l.length = (entry.size / 26).toNat ∧
    ∀ i (h : i < l.length),
      decodeSectorRecord file (entry.offset.toNat + 26 * i) = some (l.get ⟨i, h⟩) := by
  by_cases hd : (26 : Int) ∣ entry.size
  · rw [decode_sectors, if_pos hd] at hl
    exact decodeSectorsFrom_some file _ _ l hl
  · rw [decode_sectors, if_neg hd] at hl
    exact absurd hl (by simp)

/-- Claim C5 (amended): each record decoder fails exactly when `entry.size`
(an `i32`) is not a multiple of its record size (Vertex 4, LineDef 14,
SideDef 30, Thing 10) — except SECTORS (26), which additionally fails when
some record's texture field is not valid text — and on success decodes
exactly `max 0 (entry.size / record_size)` records (i.e. `size / record_size`
whenever the size is non-negative), each field-sliced in declared order with
little-endian decoding. -/
theorem c5_record_decoders_amended (file : List Nat) (entry : DirectoryEntry) :
    ((decode_linedefs file entry).isSome ↔ (14 : Int) ∣ entry.size) ∧
    ((decode_vertexes file entry).isSome ↔ (4 : Int) ∣ entry.size) ∧
    ((decode_things file entry).isSome ↔ (10 : Int) ∣ entry.size) ∧
    ((decode_sidedefs file entry).isSome ↔ (30 : Int) ∣ entry.size) ∧
    ((decode_sectors file entry).isSome ↔ ((26 : Int) ∣ entry.size ∧
      ¬ ∃ i, i < (entry.size / 26).toNat ∧
        decodeSectorRecord file (entry.offset.toNat + 26 * i) = none)) ∧
    (∀ l, decode_linedefs file entry = some l →
      l.length = (entry.size / 14).toNat ∧
      ∀ i (h : i < l.length),
        l.get ⟨i, h⟩ = decodeLinedefRecord file (entry.offset.toNat + 14 * i)) ∧
    (∀ l, decode_sectors file entry = some l →
      l.length = (entry.size / 26).toNat ∧
      ∀ i (h : i < l.length),
        decodeSectorRecord file (entry.offset.toNat + 26 * i) = some (l.get ⟨i, h⟩)) := by
  refine ⟨?_, ?_, ?_, ?_, ?_, ?_, ?_⟩
  · by_cases hd : (14 : Int) ∣ entry.size <;> simp [decode_linedefs, hd]
  · by_cases hd : (4 : Int) ∣ entry.size <;> simp [decode_vertexes, hd]
  · by_cases hd : (10 : Int) ∣ entry.size <;> simp [decode_things, hd]
  · by_cases hd : (30 : Int) ∣ entry.size <;> simp [decode_sidedefs, hd]
  · by_cases hd : (26 : Int) ∣ entry.size
    · rw [decode_sectors, if_pos hd, ← Option.ne_none_iff_isSome]
      simp only [hd, true_and, Ne]
      exact not_congr (decodeSectorsFrom_none_iff file _ _)
    · rw [decode_sectors, if_neg hd]
      simp [hd]
  · exact decode_linedefs_some file entry
  · exact decode_sectors_some file entry

theorem c5_record_decoders_amended_witness :
    (decode_linedefs [] ⟨strBytes "LINEDEFS", 0, 15⟩).isSome = false ∧
    (decode_linedefs [] ⟨strBytes "LINEDEFS", 0, 28⟩).isSome = true := by
  have h1 := (c5_record_decoders_amended [] ⟨strBytes "LINEDEFS", 0, 15⟩).1
  have h2 := (c5_record_decoders_amended [] ⟨strBytes "LINEDEFS", 0, 28⟩).1
  constructor
  · rw [← Bool.not_eq_true, h1]
    decide
  · rw [h2]
    decide

/-! Claim C7: the `"-"` texture placeholder. -/

/-- Claim C7 counterexample: a Sector record whose floor-texture field is
`"-"` followed by NUL padding decodes to the literal one-character string
`"-"` — `Sector` texture fields have no absent form and are not filtered. -/
theorem c7_counterexample_sector_keeps_dash :
    decode_sectors
        [0,0, 0,0, 45,0,0,0,0,0,0,0, 65,0,0,0,0,0,0,0, 7,0, 0,0, 0,0]
        ⟨strBytes "SECTORS", 0, 26⟩
      = some [⟨0, 0, strBytes "-", strBytes "A", 7, 0, 0⟩] ∧
    strBytes "-" ≠ [] := by
  decide

/-- Claim C7 (amended): only SideDef texture fields treat `"-"` as absent: a
SideDef upper/lower/middle texture field equal to `"-"` plus NUL padding
decodes to `none`, while Sector floor/ceiling texture fields keep the literal
string `"-"`. -/
theorem c7_texture_placeholder_amended (file : List Nat) (base : Nat) :
    (sliceAt file (base + 4) 8 = strBytes "-" ++ [0,0,0,0,0,0,0] →
      (decodeSidedefRecord file base).upper_texture = none) ∧
    (sliceAt file (base + 12) 8 = strBytes "-" ++ [0,0,0,0,0,0,0] →
      (decodeSidedefRecord file base).lower_texture = none) ∧
    (sliceAt file (base + 20) 8 = strBytes "-" ++ [0,0,0,0,0,0,0] →
      (decodeSidedefRecord file base).middle_texture = none) ∧
    (sliceAt file (base + 4) 8 = strBytes "-" ++ [0,0,0,0,0,0,0] →
      ∀ s, decodeSectorRecord file base = some s → s.floor_texture = strBytes "-") ∧
    (sliceAt file (base + 12) 8 = strBytes "-" ++ [0,0,0,0,0,0,0] →
      ∀ s, decodeSectorRecord file base = some s → s.ceiling_texture = strBytes "-") := by
  refine ⟨?_, ?_, ?_, ?_, ?_⟩
  · intro h
    simp only [decodeSidedefRecord, h]
    decide
  · intro h
    simp only [decodeSidedefRecord, h]
    decide
  · intro h
    simp only [decodeSidedefRecord, h]
    decide
  · intro h s hs
    unfold decodeSectorRecord at hs
    rw [h] at hs
    rw [show buf_to_string (strBytes "-" ++ [0,0,0,0,0,0,0]) = some (strBytes "-")
      from by decide] at hs
    cases hct : buf_to_string (sliceAt file (base + 12) 8) with
    | none =>
      rw [hct] at hs
      simp at hs
    | some ct =>
      rw [hct] at hs
      simp only [Option.some.injEq] at hs
      rw [← hs]
  · intro h s hs
    unfold decodeSectorRecord at hs
    rw [h] at hs
    rw [show buf_to_string (strBytes "-" ++ [0,0,0,0,0,0,0]) = some (strBytes "-")
      from by decide] at hs
    cases hft : buf_to_string (sliceAt file (base + 4) 8) with
    | none =>
      rw [hft] at hs
      simp at hs
    | some ft =>
      rw [hft] at hs
      simp only [Option.some.injEq] at hs
      rw [← hs]

theorem c7_texture_placeholder_amended_witness :
    (decodeSidedefRecord
        [0,0, 0,0, 45,0,0,0,0,0,0,0, 65,0,0,0,0,0,0,0, 45,0,0,0,0,0,0,0, 3,0]
        0).upper_texture = none :=
  (c7_texture_placeholder_amended
      [0,0, 0,0, 45,0,0,0,0,0,0,0, 65,0,0,0,0,0,0,0, 45,0,0,0,0,0,0,0, 3,0]
      0).1 (by decide)


/-! Claim C6: directory-entry encode/decode round trip. -/

theorem takeWhile_nonzero_append (name : List Nat) (k : Nat)
    (h : ∀ b ∈ name, b ≠ 0) :
    (name ++ List.replicate k 0).takeWhile (fun c => c != 0) = name := by
  induction name with
  | nil =>
    cases k with
    | zero => rfl
    | succ m => simp [List.replicate, List.takeWhile_cons]
  | cons a t ih =>
    have ha : a ≠ 0 := h a (by simp)
    have ht : ∀ b ∈ t, b ≠ 0 := fun b hb => h b (by simp [hb])
    simp [List.takeWhile_cons, ha, ih ht]

theorem utf8DecodeGo_ascii : ∀ (fuel : Nat) (l : List Nat), l.length ≤ fuel →
    (∀ b ∈ l, b < 128) → utf8DecodeGo fuel l = some l := by
  intro fuel
  induction fuel with
  | zero =>
    intro l hl _
    have hnil : l = [] := List.eq_nil_of_length_eq_zero (Nat.le_zero.mp hl)
    subst hnil
    rfl
  | succ n ih =>
    intro l hl hb
    cases l with
    | nil => rfl
    | cons b t =>
      have hb0 : b < 128 := hb b (by simp)
      have hstep : utf8Step (b :: t) = some (b, t) := by
        simp only [utf8Step]
        rw [if_pos hb0]
      rw [utf8DecodeGo, hstep]
      have ht : utf8DecodeGo n t = some t := ih t
        (by simp only [List.length_cons] at hl; omega)
        (fun x hx => hb x (by simp [hx]))
      dsimp only
      rw [ht]
      rfl

theorem utf8Decode_ascii (l : List Nat) (h : ∀ b ∈ l, b < 128) :
    utf8Decode l = some l :=
  utf8DecodeGo_ascii l.length l (Nat.le_refl _) h

theorem dropWhile_not_control (l : List Nat)
    (h : ∀ b ∈ l, isControlChar b = false) :
    l.dropWhile isControlChar = l := by
  cases l with
  | nil => rfl
  | cons a t =>
    rw [List.dropWhile_cons]
    simp [h a (by simp)]

theorem rtrimControl_id (l : List Nat) (h : ∀ b ∈ l, isControlChar b = false) :
    rtrimControl l = l := by
  unfold rtrimControl
  rw [dropWhile_not_control l.reverse (fun b hb => h b (List.mem_reverse.mp hb)),
    List.reverse_reverse]

theorem buf_to_string_padded (name : List Nat) (k : Nat)
    (h : ∀ b ∈ name, 32 ≤ b ∧ b < 127) :
    buf_to_string (name ++ List.replicate k 0) = some name := by
  unfold buf_to_string
  rw [takeWhile_nonzero_append name k (fun b hb => by have := h b hb; omega)]
  rw [utf8Decode_ascii name (fun b hb => by have := h b hb; omega)]
  have hr : rtrimControl name = name := rtrimControl_id name (fun b hb => by
    have := h b hb
    simp only [isControlChar, Bool.or_eq_false_iff, decide_eq_false_iff_not,
      Bool.and_eq_false_iff, not_lt, not_le]
    omega)
  simp [hr]

theorem toI32_emod (v : Int) (h1 : -2147483648 ≤ v) (h2 : v < 2147483648) :
    toI32 ((v % 4294967296).toNat) = v := by
  unfold toI32
  split <;> omega

theorem byteAt_append_right (l r : List Nat) (j : Nat) :
    byteAt (l ++ r) (l.length + j) = byteAt r j := by
  unfold byteAt
  rw [List.getD_append_right _ _ _ _ (by omega)]
  congr 1
  omega

theorem dword_encode32 (v : Int) (r : List Nat)
    (h1 : -2147483648 ≤ v) (h2 : v < 2147483648) :
    dword (encode32 v ++ r) 0 = v := by
  have harg : le32 (byteAt (encode32 v ++ r) 0) (byteAt (encode32 v ++ r) 1)
      (byteAt (encode32 v ++ r) 2) (byteAt (encode32 v ++ r) 3)
      = (v % 4294967296).toNat := by
    rw [encode32]
    simp [byteAt, le32]
    omega
  unfold dword
  norm_num
  rw [harg]
  exact toI32_emod v h1 h2

theorem dword_append_right (l r : List Nat) (j : Nat) :
    dword (l ++ r) (l.length + j) = dword r j := by
  unfold dword
  rw [show l.length + j + 1 = l.length + (j + 1) from by omega,
      show l.length + j + 2 = l.length + (j + 2) from by omega,
      show l.length + j + 3 = l.length + (j + 3) from by omega,
      byteAt_append_right, byteAt_append_right, byteAt_append_right,
      byteAt_append_right]

theorem dword_after4 (l r : List Nat) (hl : l.length = 4) :
    dword (l ++ r) 4 = dword r 0 := by
  have h := dword_append_right l r 0
  rw [hl, Nat.add_zero] at h
  exact h

theorem sliceAt_eq_self (l : List Nat) : sliceAt l 0 l.length = l := by
  apply List.ext_getElem
  · simp [sliceAt]
  · intro i h1 h2
    simp only [sliceAt, List.getElem_map, List.getElem_range, byteAt, Nat.zero_add]
    exact List.getD_eq_getElem l 0 h2

theorem sliceAt_append_right (l r : List Nat) (s len : Nat) :
    sliceAt (l ++ r) (l.length + s) len = sliceAt r s len := by
  unfold sliceAt
  apply List.map_congr_left
  intro j _
  have := byteAt_append_right l r (s + j)
  rw [← Nat.add_assoc] at this
  exact this

theorem decodeDirGo_one (file : List Nat) (offset : Int) (i : Nat) :
    decodeDirGo file offset 1 i =
      match buf_to_string (sliceAt file ((offset + (i : Int) * 16).toNat + 8) 8) with
      | none => .err i (offset + (i : Int) * 16)
      | some nm => .ok [⟨nm, dword file (offset + (i : Int) * 16).toNat,
          dword file ((offset + (i : Int) * 16).toNat + 4)⟩] := by
  rfl

/-- Claim C6: encoding a DirectoryEntry per the 16-byte layout (int32 LE
offset, int32 LE size, 8-byte NUL-padded name) and decoding it returns the
original values (for `i32`-range offset/size and a name of at most 8
printable characters); the name field is trimmed at the first NUL byte, so
the 8-byte field `MAP01` plus three NULs decodes to `MAP01`; and an entry
whose name bytes are not valid text fails with the offending entry index and
byte offset reported. -/
theorem c6_directory_roundtrip :
    (∀ (offset size : Int) (name : List Nat),
      -2147483648 ≤ offset → offset < 2147483648 →
      -2147483648 ≤ size → size < 2147483648 →
      ValidName name →
      decode_directory (encodeDirectoryEntry offset size name) 0 1
        = .ok [⟨name, offset, size⟩]) ∧
    buf_to_string (strBytes "MAP01" ++ [0, 0, 0]) = some (strBytes "MAP01") ∧
    (∀ (file : List Nat) (offset : Int),
      buf_to_string (sliceAt file (offset.toNat + 8) 8) = none →
      decode_directory file offset 1 = .err 0 offset) := by
  refine ⟨?_, by decide, ?_⟩
  · intro offset size name ho1 ho2 hs1 hs2 hn
    obtain ⟨hlen, hchars⟩ := hn
    have hfile : encodeDirectoryEntry offset size name
        = encode32 offset ++ (encode32 size ++ padName name) := by
      rw [encodeDirectoryEntry, List.append_assoc]
    have hlen8 : (encode32 offset ++ encode32 size).length = 8 := by
      simp [encode32]
    have hpadlen : (padName name).length = 8 := by
      simp only [padName, List.length_append, List.length_replicate]
      omega
    have hslice : sliceAt (encodeDirectoryEntry offset size name) 8 8
        = padName name := by
      have h1 := sliceAt_append_right (encode32 offset ++ encode32 size)
        (padName name) 0 8
      rw [hlen8, Nat.add_zero] at h1
      have h2 : sliceAt (padName name) 0 8 = padName name := by
        have h3 := sliceAt_eq_self (padName name)
        rw [hpadlen] at h3
        exact h3
      rw [encodeDirectoryEntry]
      exact h1.trans h2
    have hname : buf_to_string (padName name) = some name := by
      rw [padName]
      exact buf_to_string_padded name _ hchars
    have hoff : dword (encodeDirectoryEntry offset size name) 0 = offset := by
      rw [hfile]
      exact dword_encode32 offset _ ho1 ho2
    have hsize : dword (encodeDirectoryEntry offset size name) 4 = size := by
      rw [hfile, dword_after4 _ _ (by simp [encode32])]
      exact dword_encode32 size _ hs1 hs2
    rw [decode_directory]
    rw [show ((1 : Int).toNat) = 1 from rfl]
    rw [decodeDirGo_one]
    norm_num
    rw [hslice, hname, hoff, hsize]
  · intro file offset hbad
    rw [decode_directory]
    rw [show ((1 : Int).toNat) = 1 from rfl]
    rw [decodeDirGo_one]
    norm_num
    rw [hbad]

theorem c6_directory_roundtrip_witness :
    decode_directory (encodeDirectoryEntry 5 7 (strBytes "MAP01")) 0 1
      = .ok [⟨strBytes "MAP01", 5, 7⟩] :=
  c6_directory_roundtrip.1 5 7 (strBytes "MAP01") (by decide) (by decide)
    (by decide) (by decide) ⟨by decide, by decide⟩


/-! Claim C3: sector membership of LineDefs. -/

theorem sideMatches_ok (sidedefs : List SideDef) (idx : Int) (S : Nat)
    (h : 0 ≤ idx → idx.toNat < sidedefs.length) :
    ∃ b, sideMatches sidedefs idx S = some b ∧
      (b = true ↔ (0 ≤ idx ∧ ∃ sd, sidedefs[idx.toNat]? = some sd ∧ sd.sector = S)) := by
  by_cases hi : 0 ≤ idx
  · have hlt := h hi
    have hsd : sidedefs[idx.toNat]? = some sidedefs[idx.toNat] :=
      List.getElem?_eq_getElem hlt
    refine ⟨sidedefs[idx.toNat].sector == S, ?_, ?_⟩
    · unfold sideMatches
      rw [if_pos hi, hsd]
    · constructor
      · intro hb
        exact ⟨hi, sidedefs[idx.toNat], hsd, by simpa using hb⟩
      · rintro ⟨-, sd2, hsd2, hsec⟩
        rw [hsd] at hsd2
        obtain rfl := Option.some.inj hsd2
        simp [hsec]
  · refine ⟨false, ?_, ?_⟩
    · unfold sideMatches
      rw [if_neg hi]
    · simp [hi]

theorem lineInSector_ok (sidedefs : List SideDef) (S : Nat) (ld : LineDef)
    (hr : 0 ≤ ld.sidedef_right → ld.sidedef_right.toNat < sidedefs.length)
    (hl : 0 ≤ ld.sidedef_left → ld.sidedef_left.toNat < sidedefs.length) :
    ∃ b, lineInSector sidedefs S ld = some b ∧ (b = true ↔ memSpec sidedefs S ld) := by
  obtain ⟨br, hbr, hbr2⟩ := sideMatches_ok sidedefs ld.sidedef_right S hr
  obtain ⟨bl, hbl, hbl2⟩ := sideMatches_ok sidedefs ld.sidedef_left S hl
  cases br with
  | true =>
    refine ⟨true, ?_, ?_⟩
    · unfold lineInSector
      rw [hbr]
    · simp only [true_iff]
      exact Or.inl (hbr2.mp rfl)
  | false =>
    refine ⟨bl, ?_, ?_⟩
    · unfold lineInSector
      rw [hbr]
      exact hbl
    · constructor
      · intro hb
        exact Or.inr (hbl2.mp hb)
      · rintro (hmr | hml)
        · exact absurd (hbr2.mpr hmr) (by simp)
        · exact hbl2.mpr hml

theorem sectorLinesGo_ok (sidedefs : List SideDef) (S : Nat) :
    ∀ lds : List LineDef,
    (∀ ld ∈ lds, (0 ≤ ld.sidedef_right → ld.sidedef_right.toNat < sidedefs.length) ∧
      (0 ≤ ld.sidedef_left → ld.sidedef_left.toNat < sidedefs.length)) →
    ∃ ls, sectorLinesGo sidedefs S lds = some ls ∧
      ∀ ld, ld ∈ ls ↔ (ld ∈ lds ∧ memSpec sidedefs S ld) := by
  intro lds
  induction lds with
  | nil => intro _; exact ⟨[], rfl, by simp⟩
  | cons a t ih =>
    intro hB
    obtain ⟨ls, hls, hmem⟩ := ih (fun ld hld => hB ld (by simp [hld]))
    obtain ⟨b, hb, hbiff⟩ :=
      lineInSector_ok sidedefs S a (hB a (by simp)).1 (hB a (by simp)).2
    cases b with
    | true =>
      refine ⟨a :: ls, ?_, ?_⟩
      · unfold sectorLinesGo
        rw [hb, hls]
      · intro ld
        simp only [List.mem_cons]
        constructor
        · rintro (rfl | hld)
          · exact ⟨Or.inl rfl, hbiff.mp rfl⟩
          · obtain ⟨h1, h2⟩ := (hmem ld).mp hld
            exact ⟨Or.inr h1, h2⟩
        · rintro ⟨rfl | h1, h2⟩
          · exact Or.inl rfl
          · exact Or.inr ((hmem ld).mpr ⟨h1, h2⟩)
    | false =>
      refine ⟨ls, ?_, ?_⟩
      · unfold sectorLinesGo
        rw [hb, hls]
      · intro ld
        rw [hmem ld]
        simp only [List.mem_cons]
        constructor
        · rintro ⟨h1, h2⟩
          exact ⟨Or.inr h1, h2⟩
        · rintro ⟨rfl | h1, h2⟩
          · exact absurd (hbiff.mpr h2) (by simp)
          · exact ⟨h1, h2⟩

theorem memSpec_at_most_two (sidedefs : List SideDef) (ld : LineDef)
    (S1 S2 S3 : Nat) (h1 : memSpec sidedefs S1 ld) (h2 : memSpec sidedefs S2 ld)
    (h3 : memSpec sidedefs S3 ld) : S1 = S2 ∨ S1 = S3 ∨ S2 = S3 := by
  have key : ∀ S, memSpec sidedefs S ld →
      (∃ sd, sidedefs[ld.sidedef_right.toNat]? = some sd ∧ sd.sector = S) ∨
      (∃ sd, sidedefs[ld.sidedef_left.toNat]? = some sd ∧ sd.sector = S) := by
    rintro S (⟨-, sd, hsd, hsec⟩ | ⟨-, sd, hsd, hsec⟩)
    · exact Or.inl ⟨sd, hsd, hsec⟩
    · exact Or.inr ⟨sd, hsd, hsec⟩
  have same : ∀ (i : Nat) (T U : Nat),
      (∃ sd, sidedefs[i]? = some sd ∧ sd.sector = T) →
      (∃ sd, sidedefs[i]? = some sd ∧ sd.sector = U) → T = U := by
    rintro i T U ⟨sdT, hT, hsT⟩ ⟨sdU, hU, hsU⟩
    rw [hT] at hU
    obtain rfl := Option.some.inj hU
    omega
  rcases key S1 h1 with k1 | k1 <;> rcases key S2 h2 with k2 | k2 <;>
    rcases key S3 h3 with k3 | k3
  · exact Or.inl (same _ _ _ k1 k2)
  · exact Or.inl (same _ _ _ k1 k2)
  · exact Or.inr (Or.inl (same _ _ _ k1 k3))
  · exact Or.inr (Or.inr (same _ _ _ k2 k3))
  · exact Or.inr (Or.inr (same _ _ _ k2 k3))
  · exact Or.inr (Or.inl (same _ _ _ k1 k3))
  · exact Or.inl (same _ _ _ k1 k2)
  · exact Or.inl (same _ _ _ k1 k2)

/-- Claim C3: for every map whose stored side indices are in bounds (the
program panics otherwise) and every sector index `S`, a LineDef is placed
into sector `S`'s segment set iff at least one of its two side indices is
non-negative and the SideDef at that index has `sector = S`; and a LineDef
can belong to at most two sectors. -/
theorem c3_sector_membership (map : MapData) (S : Nat)
    (hB : SideIndexesInBounds map) :
    (∃ ls, sectorLines map S = some ls ∧
      ∀ ld, ld ∈ ls ↔ (ld ∈ map.linedefs ∧ memSpec map.sidedefs S ld)) ∧
    (∀ (ld : LineDef) (S1 S2 S3 : Nat), memSpec map.sidedefs S1 ld →
      memSpec map.sidedefs S2 ld → memSpec map.sidedefs S3 ld →
      S1 = S2 ∨ S1 = S3 ∨ S2 = S3) := by
  constructor
  · exact sectorLinesGo_ok map.sidedefs S map.linedefs hB
  · intro ld S1 S2 S3 h1 h2 h3
    exact memSpec_at_most_two map.sidedefs ld S1 S2 S3 h1 h2 h3

theorem c3_sector_membership_witness :
    ∃ ls, sectorLines ⟨strBytes "M", [⟨0, 1, 0, 0, 0, 0, -1⟩],
        [⟨0, 0, [], [], 0, 0, 0⟩], [⟨0, 0, none, none, none, 0⟩], [],
        [⟨0, 0⟩, ⟨1, 1⟩]⟩ 0 = some ls ∧
      ∀ ld, ld ∈ ls ↔ (ld ∈ (⟨strBytes "M", [⟨0, 1, 0, 0, 0, 0, -1⟩],
        [⟨0, 0, [], [], 0, 0, 0⟩], [⟨0, 0, none, none, none, 0⟩], [],
        [⟨0, 0⟩, ⟨1, 1⟩]⟩ : MapData).linedefs ∧
        memSpec [⟨0, 0, none, none, none, 0⟩] 0 ld) :=
  (c3_sector_membership _ 0 (by unfold SideIndexesInBounds; decide)).1

/-! Claim C10: extraction requires at least one LineDef. -/

theorem mapM_eq_none_of_mem {α β : Type} (f : α → Option β) :
    ∀ (l : List α) (a : α), a ∈ l → f a = none → l.mapM f = none := by
  intro l
  induction l with
  | nil => intro a ha; simp at ha
  | cons x t ih =>
    intro a ha hfa
    rw [List.mapM_cons]
    rcases List.mem_cons.mp ha with rfl | hat
    · rw [hfa]
      rfl
    · cases hfx : f x with
      | none => rfl
      | some b =>
        rw [ih a hat hfa]
        rfl

/-- Claim C10: `extract_map` requires at least one LineDef: on a map with an
empty `linedefs` vector it fails (the `assert!(lines.len() > 0)` panic), so a
marker-only map — which assembly does accept, producing all-empty vectors —
aborts single-map extraction, and aborts "extract all" mode when reached. -/
theorem c10_extract_requires_linedefs (m : MapData) (maps : List MapData)
    (hempty : m.linedefs = []) :
    extract_map m = none ∧ (m ∈ maps → extract_all maps = none) ∧
    (∀ (file : List Nat) (name : List Nat),
      buildMapData file name [] = some ⟨name, [], [], [], [], []⟩) := by
  have hm : extract_map m = none := by
    unfold extract_map
    rw [hempty]
    rfl
  refine ⟨hm, ?_, ?_⟩
  · intro hmem
    exact mapM_eq_none_of_mem extract_map maps m hmem hm
  · intro file name
    rfl

theorem c10_extract_requires_linedefs_witness :
    extract_map ⟨strBytes "MAP01", [], [], [], [], []⟩ = none ∧
    (⟨strBytes "MAP01", [], [], [], [], []⟩ ∈
        [(⟨strBytes "MAP01", [], [], [], [], []⟩ : MapData)] →
      extract_all [⟨strBytes "MAP01", [], [], [], [], []⟩] = none) ∧
    (∀ (file : List Nat) (name : List Nat),
      buildMapData file name [] = some ⟨name, [], [], [], [], []⟩) :=
  c10_extract_requires_linedefs _ _ rfl

/-! Claim C9: the map-assembly scan revisits consumed entries. -/

theorem lookupA_insertRep_self {β : Type} (m : List (List Nat × β))
    (k : List Nat) (v : β) : lookupA k (insertRep m k v) = some v := by
  induction m with
  | nil => simp [insertRep, lookupA]
  | cons p t ih =>
    cases p with
    | mk k2 v2 =>
      by_cases hk : k2 = k
      · simp [insertRep, hk, lookupA]
      · rw [insertRep, if_neg hk, lookupA, if_neg hk]
        exact ih

theorem lookupA_insertRep_other {β : Type} (m : List (List Nat × β))
    (k n : List Nat) (v : β) (h : n ≠ k) :
    lookupA n (insertRep m k v) = lookupA n m := by
  induction m with
  | nil =>
    rw [insertRep]
    unfold lookupA
    rw [if_neg (fun hc => h hc.symm)]
    rfl
  | cons p t ih =>
    cases p with
    | mk k2 v2 =>
      by_cases hk : k2 = k
      · subst hk
        rw [insertRep, if_pos rfl, lookupA, lookupA,
          if_neg (fun hc => h hc.symm), if_neg (fun hc => h hc.symm)]
      · rw [insertRep, if_neg hk, lookupA, lookupA]
        by_cases hn : k2 = n
        · rw [if_pos hn, if_pos hn]
        · rw [if_neg hn, if_neg hn]
          exact ih

theorem scanGo_mono : ∀ (d : List DirectoryEntry)
    (acc res : List (List Nat × Lumps)),
    scanGo acc d = some res →
    ∀ n, (lookupA n acc).isSome → (lookupA n res).isSome := by
  intro d
  induction d with
  | nil =>
    intro acc res h n hn
    rw [scanGo] at h
    obtain rfl := Option.some.inj h
    exact hn
  | cons e rest ih =>
    intro acc res h n hn
    rw [scanGo] at h
    by_cases hm : e.size = 0 ∧ e.offset > 0
    · rw [if_pos hm] at h
      cases hrun : runFrom [] rest with
      | none => rw [hrun] at h; simp at h
      | some lumps =>
        rw [hrun] at h
        refine ih _ res h n ?_
        by_cases hne : n = e.name
        · subst hne
          rw [lookupA_insertRep_self]
          rfl
        · rw [lookupA_insertRep_other _ _ _ _ hne]
          exact hn
    · rw [if_neg hm] at h
      exact ih _ res h n hn

theorem scanGo_marker_mem : ∀ (d1 : List DirectoryEntry) (e : DirectoryEntry)
    (d2 : List DirectoryEntry) (acc res : List (List Nat × Lumps)),
    scanGo acc (d1 ++ e :: d2) = some res → e.size = 0 → e.offset > 0 →
    (lookupA e.name res).isSome := by
  intro d1
  induction d1 with
  | nil =>
    intro e d2 acc res h hsz hoff
    rw [List.nil_append, scanGo, if_pos ⟨hsz, hoff⟩] at h
    cases hrun : runFrom [] d2 with
    | none => rw [hrun] at h; simp at h
    | some lumps =>
      rw [hrun] at h
      refine scanGo_mono d2 _ res h e.name ?_
      rw [lookupA_insertRep_self]
      rfl
  | cons a d1 ih =>
    intro e d2 acc res h hsz hoff
    rw [List.cons_append, scanGo] at h
    by_cases hm : a.size = 0 ∧ a.offset > 0
    · rw [if_pos hm] at h
      cases hrun : runFrom [] (d1 ++ e :: d2) with
      | none => rw [hrun] at h; simp at h
      | some lumps =>
        rw [hrun] at h
        exact ih e d2 _ res h hsz hoff
    · rw [if_neg hm] at h
      exact ih e d2 _ res h hsz hoff

/-- Claim C9: the outer scan of `decode_maps` treats every entry with
`size == 0` and `offset > 0` as a map marker even when a preceding map's run
already consumed it (the loop index reassignment does not advance the range
iterator): every such entry yields a map named after it, so a recognized lump
stored with zero size and positive offset (here an empty REJECT) additionally
starts a map of its own, and a later marker with the same name as an earlier
one silently replaces the earlier map's lump set. -/
theorem c9_scan_rescans_consumed_entries :
    (∀ (d1 : List DirectoryEntry) (e : DirectoryEntry) (d2 : List DirectoryEntry)
      (res : List (List Nat × Lumps)),
      scanMaps (d1 ++ e :: d2) = some res → e.size = 0 → e.offset > 0 →
      (lookupA e.name res).isSome) ∧
    (∃ res, scanMaps [⟨strBytes "MAP01", 12, 0⟩, ⟨strBytes "THINGS", 100, 10⟩,
        ⟨strBytes "REJECT", 200, 0⟩, ⟨strBytes "VERTEXES", 300, 8⟩,
        ⟨strBytes "ENDMARK", 400, 5⟩] = some res ∧
      (∃ l, lookupA (strBytes "MAP01") res = some l ∧
        (lookupA (strBytes "REJECT") l).isSome) ∧
      lookupA (strBytes "REJECT") res
        = some [(strBytes "VERTEXES", ⟨strBytes "VERTEXES", 300, 8⟩)]) ∧
    (∃ res, scanMaps [⟨strBytes "MAP01", 12, 0⟩, ⟨strBytes "THINGS", 100, 20⟩,
        ⟨strBytes "XX", 50, 5⟩, ⟨strBytes "MAP01", 60, 0⟩,
        ⟨strBytes "VERTEXES", 300, 8⟩, ⟨strBytes "YY", 70, 3⟩] = some res ∧
      ∃ l, lookupA (strBytes "MAP01") res = some l ∧
        lookupA (strBytes "THINGS") l = none ∧
        (lookupA (strBytes "VERTEXES") l).isSome) := by
  refine ⟨?_, by decide, by decide⟩
  intro d1 e d2 res h hsz hoff
  exact scanGo_marker_mem d1 e d2 [] res h hsz hoff

theorem c9_scan_rescans_consumed_entries_witness :
    (lookupA (strBytes "MAP01")
      [(strBytes "MAP01", ([] : Lumps))]).isSome :=
  c9_scan_rescans_consumed_entries.1 [] ⟨strBytes "MAP01", 12, 0⟩
    [⟨strBytes "ENDOFWAD", 20, 5⟩] [(strBytes "MAP01", [])]
    (by decide) rfl (by decide)


/-! Claim C8: a quadrilateral sector stitches to one closed 4-point loop.
The chase follows a simple path: on a segment list that is (up to order and
orientation) the edge list of a vertex path with distinct vertices, each step
has exactly one matching segment, so the chase appends the path's remaining
vertices in order and consumes everything. -/

theorem matchesEdge_swap {s : Line} {e : Vertex × Vertex}
    (h : matchesEdge s e) : matchesEdge s e.swap := by
  unfold matchesEdge at h ⊢
  simp only [Prod.fst_swap, Prod.snd_swap]
  tauto

theorem forall2_matches_swap : ∀ {l : List Line} {es : List (Vertex × Vertex)},
    List.Forall₂ matchesEdge l es →
    List.Forall₂ matchesEdge l (es.map Prod.swap) := by
  intro l es h
  induction h with
  | nil => simp
  | cons h1 _ ih =>
    simp only [List.map_cons]
    exact List.Forall₂.cons (matchesEdge_swap h1) ih

theorem pathEdges_mem : ∀ (vs : List Vertex) (e : Vertex × Vertex),
    e ∈ pathEdges vs → e.1 ∈ vs ∧ e.2 ∈ vs := by
  intro vs
  induction vs with
  | nil => intro e he; simp [pathEdges] at he
  | cons a t ih =>
    intro e he
    cases t with
    | nil => simp [pathEdges] at he
    | cons b r =>
      unfold pathEdges at he
      rcases List.mem_cons.mp he with rfl | hmem
      · exact ⟨by simp, by simp⟩
      · have h2 := ih e hmem
        exact ⟨List.mem_cons_of_mem a h2.1, List.mem_cons_of_mem a h2.2⟩

theorem forall2_exists_right {R : Line → Vertex × Vertex → Prop} :
    ∀ {l : List Line} {es : List (Vertex × Vertex)}, List.Forall₂ R l es →
    ∀ t ∈ l, ∃ e ∈ es, R t e := by
  intro l es h
  induction h with
  | nil => intro t ht; simp at ht
  | cons h1 _ ih =>
    intro t ht
    rcases List.mem_cons.mp ht with rfl | hmem
    · exact ⟨_, by simp, h1⟩
    · obtain ⟨e, he, hre⟩ := ih t hmem
      exact ⟨e, by simp [he], hre⟩

theorem forall2_split_right {R : Line → Vertex × Vertex → Prop} :
    ∀ (m1 : List (Vertex × Vertex)) (b : Vertex × Vertex)
      (m2 : List (Vertex × Vertex)) (l : List Line),
      List.Forall₂ R l (m1 ++ b :: m2) →
    ∃ l1 x l2, l = l1 ++ x :: l2 ∧ List.Forall₂ R l1 m1 ∧ R x b ∧
      List.Forall₂ R l2 m2 := by
  intro m1
  induction m1 with
  | nil =>
    intro b m2 l h
    cases l with
    | nil => rw [List.nil_append] at h; cases h
    | cons x t =>
      rw [List.nil_append] at h
      cases h with
      | cons hx ht => exact ⟨[], x, t, rfl, List.Forall₂.nil, hx, ht⟩
  | cons bb m1 ih =>
    intro b m2 l h
    cases l with
    | nil => rw [List.cons_append] at h; cases h
    | cons x t =>
      rw [List.cons_append] at h
      cases h with
      | cons hx ht =>
        obtain ⟨l1, y, l2, rfl, hf1, hyb, hf2⟩ := ih b m2 t ht
        exact ⟨x :: l1, y, l2, rfl, List.Forall₂.cons hx hf1, hyb, hf2⟩

theorem extractMatch_first_of_unique (cur : Vertex) :
    ∀ (l1 : List Line) (s : Line) (l2 : List Line),
    (∀ t ∈ l1, ¬(t.1 = cur ∨ t.2.1 = cur)) → (s.1 = cur ∨ s.2.1 = cur) →
    extractMatch cur (l1 ++ s :: l2) = some (s, l1 ++ l2) := by
  intro l1
  induction l1 with
  | nil =>
    intro s l2 _ hs
    rw [List.nil_append, List.nil_append]
    unfold extractMatch
    rw [if_pos hs]
  | cons a t ih =>
    intro s l2 hno hs
    rw [List.cons_append, List.cons_append]
    unfold extractMatch
    rw [if_neg (hno a (by simp))]
    rw [ih s l2 (fun x hx => hno x (by simp [hx])) hs]

theorem chaseSpecGo_path : ∀ (tl : List Vertex) (cur : Vertex)
    (pending : List Line) (es : List (Vertex × Vertex)) (fuel : Nat),
    List.Forall₂ matchesEdge pending es → es.Perm (pathEdges (cur :: tl)) →
    (cur :: tl).Nodup → pending.length ≤ fuel →
    chaseSpecGo fuel cur pending = (tl, []) := by
  intro tl
  induction tl with
  | nil =>
    intro cur pending es fuel hf hperm hnd hfuel
    have hes : es = [] := List.Perm.eq_nil (by simpa [pathEdges] using hperm)
    subst hes
    have hp : pending = [] := by cases hf; rfl
    subst hp
    cases fuel <;> rfl
  | cons p1 tl ih =>
    intro cur pending es fuel hf hperm hnd hfuel
    have hmem : (cur, p1) ∈ es := hperm.mem_iff.mpr (by unfold pathEdges; simp)
    obtain ⟨m1, m2, hes⟩ := List.append_of_mem hmem
    subst hes
    have hperm2 : (m1 ++ m2).Perm (pathEdges (p1 :: tl)) := by
      have h0 : pathEdges (cur :: p1 :: tl) = (cur, p1) :: pathEdges (p1 :: tl) := rfl
      have h1 : ((cur, p1) :: (m1 ++ m2)).Perm ((cur, p1) :: pathEdges (p1 :: tl)) :=
        List.perm_middle.symm.trans (h0 ▸ hperm)
      exact h1.cons_inv
    obtain ⟨l1, s, l2, rfl, hf1, hsb, hf2⟩ :=
      forall2_split_right m1 (cur, p1) m2 pending hf
    have hcurnot : cur ∉ p1 :: tl := (List.nodup_cons.mp hnd).1
    have hnomatch : ∀ t ∈ l1, ¬(t.1 = cur ∨ t.2.1 = cur) := by
      intro t ht hc
      obtain ⟨e, he, hre⟩ := forall2_exists_right hf1 t ht
      have hein : e ∈ pathEdges (p1 :: tl) :=
        hperm2.mem_iff.mp (List.mem_append_left m2 he)
      have hv := pathEdges_mem _ e hein
      rcases hre with ⟨ha, hb⟩ | ⟨ha, hb⟩ <;> rcases hc with h1 | h1
    -- t.1 = e.1 and t.1 = cur, so cur = e.1 ∈ p1 :: tl
      · exact hcurnot (by rw [← h1, ha]; exact hv.1)
      · exact hcurnot (by rw [← h1, hb]; exact hv.2)
      · exact hcurnot (by rw [← h1, ha]; exact hv.2)
      · exact hcurnot (by rw [← h1, hb]; exact hv.1)
    have hs : s.1 = cur ∨ s.2.1 = cur := by
      rcases hsb with ⟨h1, _⟩ | ⟨_, h2⟩
      · exact Or.inl h1
      · exact Or.inr h2
    cases fuel with
    | zero =>
      exfalso
      rw [List.length_append, List.length_cons] at hfuel
      omega
    | succ n =>
      rw [chaseSpecGo]
      rw [extractMatch_first_of_unique cur l1 s l2 hnomatch hs]
      have hne : cur ≠ p1 := fun hc => hcurnot (hc ▸ List.mem_cons_self p1 tl)
      have hnxt : (if s.1 = cur then s.2.1 else s.1) = p1 := by
        rcases hsb with ⟨h1, h2⟩ | ⟨h1, h2⟩
        · rw [if_pos h1]; exact h2
        · rw [if_neg (by rw [h1]; exact fun hc => hne hc.symm)]; exact h1
      have hfl : (l1 ++ l2).length ≤ n := by
        rw [List.length_append]
        rw [List.length_append, List.length_cons] at hfuel
        omega
      have hrec := ih p1 (l1 ++ l2) (m1 ++ m2) n
        (List.rel_append hf1 hf2) hperm2 (List.nodup_cons.mp hnd).2 hfl
      dsimp only
      rw [hnxt, hrec]

theorem perm3_rot {α : Type} (p q r : α) : ([p, q, r] : List α).Perm [q, r, p] :=
  (List.Perm.swap q p [r]).trans (List.Perm.cons q (List.Perm.swap r p []))

theorem perm3_rev {α : Type} (p q r : α) : ([p, q, r] : List α).Perm [r, q, p] :=
  (List.reverse_perm ([p, q, r] : List α)).symm

theorem perm4_rot {α : Type} (p q r s : α) :
    ([p, q, r, s] : List α).Perm [q, r, s, p] :=
  (List.Perm.swap q p [r, s]).trans
    ((List.Perm.cons q (List.Perm.swap r p [s])).trans
      (List.Perm.cons q (List.Perm.cons r (List.Perm.swap s p []))))

theorem stitch_quad_case (x y z w : Vertex) (s0 : Line) (rest : List Line)
    (etail : List (Vertex × Vertex))
    (hnd : ([y, z, w, x] : List Vertex).Nodup)
    (hx : s0.1 = x) (hy : s0.2.1 = y)
    (hf : List.Forall₂ matchesEdge rest etail)
    (hperm : etail.Perm (pathEdges [y, z, w, x])) :
    stitchAll (s0 :: rest) = ([[x, y, z, w, x]], []) := by
  have hlen : rest.length = 3 := by
    have h1 := hf.length_eq
    have h2 := hperm.length_eq
    simp [pathEdges] at h2
    omega
  have hchase : chase s0.2.1 rest = ([z, w, x], []) := by
    rw [chase, chaseGo_eq_spec, hy]
    exact chaseSpecGo_path [z, w, x] y rest etail rest.length hf hperm hnd
      (Nat.le_refl _)
  rw [stitchAll_cons, hchase, hx, hy]
  simp [stitchAll, stitchGo, hlen]


set_option maxHeartbeats 2000000 in
/-- Claim C8: for every sector whose segment set consists of exactly 4
two-sided LineDefs forming a closed quadrilateral on distinct corners
`a b c d` (in any list order and with any per-segment stored orientation),
stitching yields exactly one loop and no warnings; the loop is closed (its
last point equals its first), and it contains exactly the 4 corner points
(its point list is the 4 distinct corners followed by the repeated starting
corner). -/
theorem c8_quad_single_closed_loop (a b c d : Vertex) (segs : List Line)
    (hnd : ([a, b, c, d] : List Vertex).Nodup)
    (hquad : SegsFormQuad segs a b c d)
    (htwo : ∀ s ∈ segs, 0 ≤ s.2.2.sidedef_right ∧ 0 ≤ s.2.2.sidedef_left) :
    ∃ L, stitchAll segs = ([L], []) ∧ L.length = 5 ∧ L.head? = L.getLast? ∧
      (∀ v, v ∈ L.dropLast ↔ (v = a ∨ v = b ∨ v = c ∨ v = d)) ∧
      L.dropLast.Nodup := by
  obtain ⟨es, hf, hperm⟩ := hquad
  have rot1 : ([a, b, c, d] : List Vertex).Perm [b, c, d, a] := perm4_rot a b c d
  have rot2 : ([a, b, c, d] : List Vertex).Perm [c, d, a, b] :=
    rot1.trans (perm4_rot b c d a)
  have rot3 : ([a, b, c, d] : List Vertex).Perm [d, a, b, c] :=
    rot2.trans (perm4_rot c d a b)
  have pBADC : ([a, b, c, d] : List Vertex).Perm [b, a, d, c] :=
    (List.Perm.swap b a [c, d]).trans
      (List.Perm.cons b (List.Perm.cons a (List.Perm.swap d c [])))
  have pCBAD : ([a, b, c, d] : List Vertex).Perm [c, b, a, d] :=
    (List.Perm.swap b a [c, d]).trans
      ((List.Perm.cons b (List.Perm.swap c a [d])).trans
        (List.Perm.swap c b [a, d]))
  have pDCBA : ([a, b, c, d] : List Vertex).Perm [d, c, b, a] :=
    (List.reverse_perm ([a, b, c, d] : List Vertex)).symm
  have pADCB : ([a, b, c, d] : List Vertex).Perm [a, d, c, b] :=
    List.Perm.cons a (perm3_rev b c d)
  cases segs with
  | nil =>
    exfalso
    cases hf
    have hlen := hperm.length_eq
    simp [cycleEdges] at hlen
  | cons s0 rest =>
    cases es with
    | nil => exact absurd hf (by intro hc; cases hc)
    | cons e0 etail =>
      cases hf with
      | cons h0 hrest =>
        have hmem : e0 ∈ cycleEdges a b c d :=
          hperm.mem_iff.mp (List.mem_cons_self e0 etail)
        unfold cycleEdges at hmem
        simp only [List.mem_cons, List.not_mem_nil, or_false] at hmem
        rcases hmem with rfl | rfl | rfl | rfl
        · -- e0 = (a, b)
          have hT : etail.Perm [(b, c), (c, d), (d, a)] := hperm.cons_inv
          rcases h0 with ⟨hx1, hy1⟩ | ⟨hx1, hy1⟩
          · refine ⟨[a, b, c, d, a],
              stitch_quad_case a b c d s0 rest etail (rot1.nodup hnd) hx1 hy1
                hrest hT, rfl, rfl, ?_, ?_⟩
            · intro v
              show v ∈ [a, b, c, d] ↔ _
              simp only [List.mem_cons, List.not_mem_nil, or_false]
            · exact hnd
          · refine ⟨[b, a, d, c, b],
              stitch_quad_case b a d c s0 rest (etail.map Prod.swap)
                (pADCB.nodup hnd) hx1 hy1 (forall2_matches_swap hrest)
                ((hT.map Prod.swap).trans (perm3_rev (c, b) (d, c) (a, d))),
              rfl, rfl, ?_, ?_⟩
            · intro v
              show v ∈ [b, a, d, c] ↔ _
              simp only [List.mem_cons, List.not_mem_nil, or_false]
              tauto
            · exact pBADC.nodup hnd
        · -- e0 = (b, c)
          have hstep : (cycleEdges a b c d).Perm
              ((b, c) :: [(a, b), (c, d), (d, a)]) :=
            @List.perm_middle _ (b, c) [(a, b)] [(c, d), (d, a)]
          have hT : etail.Perm [(a, b), (c, d), (d, a)] :=
            (hperm.trans hstep).cons_inv
          rcases h0 with ⟨hx1, hy1⟩ | ⟨hx1, hy1⟩
          · refine ⟨[b, c, d, a, b],
              stitch_quad_case b c d a s0 rest etail (rot2.nodup hnd) hx1 hy1
                hrest (hT.trans (perm3_rot (a, b) (c, d) (d, a))),
              rfl, rfl, ?_, ?_⟩
            · intro v
              show v ∈ [b, c, d, a] ↔ _
              simp only [List.mem_cons, List.not_mem_nil, or_false]
              tauto
            · exact rot1.nodup hnd
          · refine ⟨[c, b, a, d, c],
              stitch_quad_case c b a d s0 rest (etail.map Prod.swap)
                (pBADC.nodup hnd) hx1 hy1 (forall2_matches_swap hrest)
                ((hT.map Prod.swap).trans
                  (List.Perm.cons (b, a) (List.Perm.swap (a, d) (d, c) []))),
              rfl, rfl, ?_, ?_⟩
            · intro v
              show v ∈ [c, b, a, d] ↔ _
              simp only [List.mem_cons, List.not_mem_nil, or_false]
              tauto
            · exact pCBAD.nodup hnd
        · -- e0 = (c, d)
          have hstep : (cycleEdges a b c d).Perm
              ((c, d) :: [(a, b), (b, c), (d, a)]) :=
            @List.perm_middle _ (c, d) [(a, b), (b, c)] [(d, a)]
          have hT : etail.Perm [(a, b), (b, c), (d, a)] :=
            (hperm.trans hstep).cons_inv
          rcases h0 with ⟨hx1, hy1⟩ | ⟨hx1, hy1⟩
          · refine ⟨[c, d, a, b, c],
              stitch_quad_case c d a b s0 rest etail (rot3.nodup hnd) hx1 hy1
                hrest (hT.trans ((perm3_rot (a, b) (b, c) (d, a)).trans
                  (perm3_rot (b, c) (d, a) (a, b)))),
              rfl, rfl, ?_, ?_⟩
            · intro v
              show v ∈ [c, d, a, b] ↔ _
              simp only [List.mem_cons, List.not_mem_nil, or_false]
              tauto
            · exact rot2.nodup hnd
          · refine ⟨[d, c, b, a, d],
              stitch_quad_case d c b a s0 rest (etail.map Prod.swap)
                (pCBAD.nodup hnd) hx1 hy1 (forall2_matches_swap hrest)
                ((hT.map Prod.swap).trans (List.Perm.swap (c, b) (b, a) [(a, d)])),
              rfl, rfl, ?_, ?_⟩
            · intro v
              show v ∈ [d, c, b, a] ↔ _
              simp only [List.mem_cons, List.not_mem_nil, or_false]
              tauto
            · exact pDCBA.nodup hnd
        · -- e0 = (d, a)
          have hstep : (cycleEdges a b c d).Perm
              ((d, a) :: [(a, b), (b, c), (c, d)]) :=
            @List.perm_middle _ (d, a) [(a, b), (b, c), (c, d)] []
          have hT : etail.Perm [(a, b), (b, c), (c, d)] :=
            (hperm.trans hstep).cons_inv
          rcases h0 with ⟨hx1, hy1⟩ | ⟨hx1, hy1⟩
          · refine ⟨[d, a, b, c, d],
              stitch_quad_case d a b c s0 rest etail (hnd) hx1 hy1 hrest hT,
              rfl, rfl, ?_, ?_⟩
            · intro v
              show v ∈ [d, a, b, c] ↔ _
              simp only [List.mem_cons, List.not_mem_nil, or_false]
              tauto
            · exact rot3.nodup hnd
          · refine ⟨[a, d, c, b, a],
              stitch_quad_case a d c b s0 rest (etail.map Prod.swap)
                (pDCBA.nodup hnd) hx1 hy1 (forall2_matches_swap hrest)
                ((hT.map Prod.swap).trans (perm3_rev (b, a) (c, b) (d, c))),
              rfl, rfl, ?_, ?_⟩
            · intro v
              show v ∈ [a, d, c, b] ↔ _
              simp only [List.mem_cons, List.not_mem_nil, or_false]
              tauto
            · exact pADCB.nodup hnd

theorem c8_quad_single_closed_loop_witness :
    ∃ L, stitchAll [((⟨0, 0⟩ : Vertex), (⟨8, 0⟩ : Vertex), (⟨0, 0, 0, 0, 0, 0, 0⟩ : LineDef)),
        ((⟨8, 0⟩ : Vertex), (⟨8, 8⟩ : Vertex), (⟨0, 0, 0, 0, 0, 0, 0⟩ : LineDef)),
        ((⟨8, 8⟩ : Vertex), (⟨0, 8⟩ : Vertex), (⟨0, 0, 0, 0, 0, 0, 0⟩ : LineDef)),
        ((⟨0, 8⟩ : Vertex), (⟨0, 0⟩ : Vertex), (⟨0, 0, 0, 0, 0, 0, 0⟩ : LineDef))]
        = ([L], []) ∧
      L.length = 5 ∧ L.head? = L.getLast? ∧
      (∀ v, v ∈ L.dropLast ↔ (v = ⟨0, 0⟩ ∨ v = ⟨8, 0⟩ ∨ v = ⟨8, 8⟩ ∨ v = ⟨0, 8⟩)) ∧
      L.dropLast.Nodup :=
  c8_quad_single_closed_loop ⟨0, 0⟩ ⟨8, 0⟩ ⟨8, 8⟩ ⟨0, 8⟩ _ (by decide)
    ⟨[((⟨0, 0⟩ : Vertex), (⟨8, 0⟩ : Vertex)), ((⟨8, 0⟩ : Vertex), (⟨8, 8⟩ : Vertex)),
      ((⟨8, 8⟩ : Vertex), (⟨0, 8⟩ : Vertex)), ((⟨0, 8⟩ : Vertex), (⟨0, 0⟩ : Vertex))],
      List.Forall₂.cons (Or.inl ⟨rfl, rfl⟩)
        (List.Forall₂.cons (Or.inl ⟨rfl, rfl⟩)
          (List.Forall₂.cons (Or.inl ⟨rfl, rfl⟩)
            (List.Forall₂.cons (Or.inl ⟨rfl, rfl⟩) List.Forall₂.nil))),
      List.Perm.refl _⟩
    (by decide)

end Wadd
